import Mathlib

/-!
Verification of the XPodTest test-orchestration engine (xrootdTesting.py, runner.py).

Strings are modelled as `List Char`; Python dicts as association lists;
machine floats produced by `float(...)` on decimal literals as exact `Rat`
(the source only ever divides/multiplies by 1024 and parses short decimal
strings, so exact rational arithmetic models the observed values).
Fallible Python code is modelled with `Except`; Python exception classes
are an enumerated type.  All recursive definitions are structural (fuel
where needed) so that they evaluate inside `decide`/`rfl`.
-/

namespace XPodTest

abbrev Str := List Char

def strL (s : String) : Str := s.toList

def exceptDecEq {ε α : Type} [DecidableEq ε] [DecidableEq α] : DecidableEq (Except ε α)
  | .ok x, .ok y =>
    match decEq x y with
    | .isTrue h => .isTrue (h ▸ rfl)
    | .isFalse h => .isFalse (fun hc => h (Except.ok.inj hc))
  | .ok _, .error _ => .isFalse (fun hc => Except.noConfusion hc)
  | .error _, .ok _ => .isFalse (fun hc => Except.noConfusion hc)
  | .error x, .error y =>
    match decEq x y with
    | .isTrue h => .isTrue (h ▸ rfl)
    | .isFalse h => .isFalse (fun hc => h (Except.error.inj hc))

instance {ε α : Type} [DecidableEq ε] [DecidableEq α] : DecidableEq (Except ε α) :=
  exceptDecEq

/-! ### Python `str.replace` (non-overlapping, left-to-right) -/

/-- One step of `str.replace`: fuel-indexed scan; `fuel ≥ s.length` makes it total.
Mirrors CPython semantics for a non-empty pattern: at each position, if the
pattern is a prefix, emit the replacement and continue after the pattern,
else keep one character and continue. -/
def pyReplaceFuel (pat repl : Str) : Nat → Str → Str
  | _, [] => []
  | 0, s => s
  | fuel + 1, c :: rest =>
    if pat ≠ [] ∧ pat.isPrefixOf (c :: rest) then
      repl ++ pyReplaceFuel pat repl fuel ((c :: rest).drop pat.length)
    else
      c :: pyReplaceFuel pat repl fuel rest

/-- Python `s.replace(pat, repl)` (for non-empty `pat`; the source only
uses the fixed token "TEST_PATH"). -/
def pyReplace (pat repl s : Str) : Str := pyReplaceFuel pat repl s.length s

/-- The literal substitution token from `xrootdTesting.substitute_path`. -/
def TOKEN : Str := strL ("TEST_PATH")

/-! ### The configuration-tree data model and `substitute_path` -/

/-- Model of the JSON-like values `substitute_path` traverses: strings,
non-string leaves (numbers, booleans, null), lists and dicts (dicts as
association lists, preserving insertion order). -/
inductive PyVal : Type where
  | str : Str → PyVal
  | intv : Int → PyVal
  | boolv : Bool → PyVal
  | nonev : PyVal
  | list : List PyVal → PyVal
  | dict : List (PyVal × PyVal) → PyVal

mutual

/-- Function `xrootdTesting.substitute_path`: recursively substitutes TOKEN in strings
within a data structure (dict comprehension maps both keys and values; the
association-list model keeps colliding keys separate). -/
def substitute_path (test_path : Str) : PyVal → PyVal
  | .str s => .str (pyReplace TOKEN test_path s)
  | .intv n => .intv n
  | .boolv b => .boolv b
  | .nonev => .nonev
  | .list l => .list (substList test_path l)
  | .dict kvs => .dict (substKVs test_path kvs)

def substList (test_path : Str) : List PyVal → List PyVal
  | [] => []
  | v :: vs => substitute_path test_path v :: substList test_path vs

def substKVs (test_path : Str) : List (PyVal × PyVal) → List (PyVal × PyVal)
  | [] => []
  | (k, v) :: kvs =>
    (substitute_path test_path k, substitute_path test_path v) :: substKVs test_path kvs

end

/-! Token-freeness of a configuration tree (no string anywhere contains the
token as a substring). -/

/-- Boolean substring test (`pat in s` for Python): the pattern occurs as a
contiguous infix. -/
def hasInfixB (pat : Str) : Str → Bool
  | [] => pat.isEmpty
  | c :: rest => pat.isPrefixOf (c :: rest) || hasInfixB pat rest

def strTokenFree (s : Str) : Bool := !(hasInfixB TOKEN s)

mutual

def valTokenFree : PyVal → Bool
  | .str s => strTokenFree s
  | .intv _ => true
  | .boolv _ => true
  | .nonev => true
  | .list l => listTokenFree l
  | .dict kvs => kvsTokenFree kvs

def listTokenFree : List PyVal → Bool
  | [] => true
  | v :: vs => valTokenFree v && listTokenFree vs

def kvsTokenFree : List (PyVal × PyVal) → Bool
  | [] => true
  | (k, v) :: kvs => valTokenFree k && valTokenFree v && kvsTokenFree kvs

end

/-! ### The retry wrapper `run_test_client_with_retries` -/

/-- The exception classes caught by `run_test_client_with_retries`
(`subprocess.TimeoutExpired`, `requests.exceptions.RequestException`,
`OSError`), the uncaught classes that appear in the pipeline
(`RuntimeError` from the readiness probe, `KeyError` from a missing
mapping key, `ValueError` from `float`), plus a constructor for every
other exception; the payload distinguishes distinct error values of the
same class. -/
inductive PyErr : Type where
  | timeoutExpired : Nat → PyErr
  | requestException : Nat → PyErr
  | osError : Nat → PyErr
  | runtimeError : Nat → PyErr
  | keyError : Nat → PyErr
  | valueError : Nat → PyErr
  | otherExc : Nat → PyErr
deriving DecidableEq

/-- Whether the `except (TimeoutExpired, RequestException, OSError)` clause
catches this exception (`RuntimeError` from the readiness probe, `KeyError`
from a missing mapping key and `ValueError` from `float` are not caught by
it). -/
def isTransientErr : PyErr → Bool
  | .timeoutExpired _ => true
  | .requestException _ => true
  | .osError _ => true
  | .runtimeError _ => false
  | .keyError _ => false
  | .valueError _ => false
  | .otherExc _ => false

def MAX_RETRIES : Nat := 3

/-- The `for attempt in range(1, MAX_RETRIES + 1)` loop body of
`run_test_client_with_retries`, with `fuel = MAX_RETRIES - attempt` remaining
retries.  The operation is modelled as a function of the (1-based) invocation
number; the result records the value or re-raised error together with the
number of invocations performed (`time.sleep(5)` between attempts is elided).
-/
def retryFrom {α : Type} (op : Nat → Except PyErr α) : Nat → Nat → Except PyErr α × Nat
  | 0, attempt =>
    match op attempt with
    | .ok v => (.ok v, 1)
    | .error e => (.error e, 1)
  | fuel + 1, attempt =>
    match op attempt with
    | .ok v => (.ok v, 1)
    | .error e =>
      if isTransientErr e then
        ((retryFrom op fuel (attempt + 1)).1, (retryFrom op fuel (attempt + 1)).2 + 1)
      else (.error e, 1)

/-- Function `xrootdTesting.run_test_client_with_retries`: up to `MAX_RETRIES` total
attempts, retrying only the three transient classes. -/
def run_test_client_with_retries {α : Type} (op : Nat → Except PyErr α) :
    Except PyErr α × Nat :=
  retryFrom op (MAX_RETRIES - 1) 1

/-! ### The readiness probe `XRootDTestRunner._wait_for_service` -/

/-- The `for i in range(timeout)` polling loop: `connectable s` tells whether
the TCP connect attempted in second `s` succeeds (the caught
`ConnectionRefusedError`/`socket.timeout` cases); the result is the raised
`RuntimeError` (`.error ()`) or the second of the successful connect, paired
with the number of connection attempts made.  `time.sleep(1)` between failed
attempts is the one-probe-per-second clock. -/
def waitLoop (connectable : Nat → Bool) : Nat → Nat → Except Unit Nat × Nat
  | 0, _ => (.error (), 0)
  | fuel + 1, start =>
    if connectable start then (.ok start, 1)
    else ((waitLoop connectable fuel (start + 1)).1, (waitLoop connectable fuel (start + 1)).2 + 1)

/-- Function `runner._wait_for_service` with its `timeout` parameter (default 30). -/
def wait_for_service (connectable : Nat → Bool) (timeout : Nat) : Except Unit Nat × Nat :=
  waitLoop connectable timeout 0

/-! ### `launch_server` and the "no real server" sentinel -/

/-- Apostrophe character (U+0027), used inside the sentinel entrypoint. -/
def SQ : Char := Char.ofNat 39

/-- The fixed busybox sentinel entrypoint compared against in
`runner.launch_server` and produced by `build_server_config` when no
`server_config` is given: /bin/sh -c "echo (apostrophe)Hello
world(apostrophe); sleep 300". -/
def sentinelEntrypoint : List Str :=
  [strL ("/bin/sh"), strL ("-c"),
    strL ("echo ") ++ [SQ] ++ strL ("Hello world") ++ [SQ] ++ strL ("; sleep 300")]

structure ServerConfig where
  entrypoint : List Str
  volumes : List (Str × Str)
  host : Str
  port : Nat
deriving DecidableEq

/-- The `is_default` test inside `runner.launch_server`. -/
def is_default (sc : ServerConfig) : Bool :=
  sc.entrypoint == sentinelEntrypoint && sc.volumes.isEmpty

inductive LaunchEvent : Type where
  | cleanupStale
  | removedExisting
  | started
  | probed (host : Str) (port : Nat)
  | connectWarning
deriving DecidableEq

/-- Function `runner.launch_server` as its event trace: sweep stale containers, then
(inside the try block, when the engine connection holds) force-remove a
same-named container, start the server container, and probe readiness
unless the sentinel configuration is detected; an engine connection failure
is caught and logged. -/
def launch_server (engineOk : Bool) (sc : ServerConfig) : List LaunchEvent :=
  LaunchEvent.cleanupStale ::
    (if engineOk then
      [LaunchEvent.removedExisting, LaunchEvent.started] ++
        (if is_default sc then [] else [LaunchEvent.probed sc.host sc.port])
    else [LaunchEvent.connectWarning])

/-- Function `xrootdTesting.build_server_config`: user-supplied `server_config` gets
path substitution applied and port default 1094; absent `server_config`
yields the sentinel busybox configuration with port default 9999. -/
def build_server_config (userConfig : Option (List Str × List (Str × Str)))
    (test_path : Str) (host : Str) (port : Option Nat) : ServerConfig :=
  match userConfig with
  | some (ep, vols) =>
    { entrypoint := ep.map (pyReplace TOKEN test_path),
      volumes := vols.map (fun p => (pyReplace TOKEN test_path p.1, pyReplace TOKEN test_path p.2)),
      host := host, port := (port.getD 1094) }
  | none =>
    { entrypoint := sentinelEntrypoint, volumes := [], host := host, port := (port.getD 9999) }

/-! ### Container naming: `XRootDTestRunner._generate_name` -/

/-- Python `host.replace(".", "-")`: a single-character pattern makes
`str.replace` a character map. -/
def pyReplaceChar (old new : Char) (s : Str) : Str :=
  s.map (fun c => if c = old then new else c)

def splitChAux (sep : Char) : Str → Str → List Str
  | [], acc => [acc.reverse]
  | c :: rest, acc =>
    if c = sep then acc.reverse :: splitChAux sep rest []
    else splitChAux sep rest (c :: acc)

/-- Python `s.split(sep)` for a one-character separator, keeping empty
fields. -/
def splitCh (sep : Char) (s : Str) : List Str := splitChAux sep s []

/-- Python `version.split(":")[-1] if ":" in version else version`: when no colon is
present, `split` returns `[version]` whose last element is `version` itself,
so the two branches coincide and the conditional is dropped. -/
def versionTag (version : Str) : Str := (splitCh ':' version).getLastD version

/-- Function `runner._generate_name`. -/
def generate_name (base version host : Str) : Str :=
  base ++ ('-' :: pyReplaceChar '.' '-' host) ++ ('-' :: versionTag version)

/-- Decimal digit characters for `str(i)`. -/
def digitChar (d : Nat) : Char :=
  if d = 0 then '0' else if d = 1 then '1' else if d = 2 then '2' else if d = 3 then '3'
  else if d = 4 then '4' else if d = 5 then '5' else if d = 6 then '6' else if d = 7 then '7'
  else if d = 8 then '8' else '9'

/-- Python `str(i)` for a natural number. -/
def natToStr (n : Nat) : Str :=
  if n = 0 then ['0'] else (Nat.digits 10 n).reverse.map digitChar

/-- The fan-out suffix `f"-parallel-{i}-{uuid.uuid4().hex[:8]}"` from
`_run_parallel_clients`. -/
def parallelSuffix (i : Nat) (uuidHex : Str) : Str :=
  strL ("-parallel-") ++ natToStr i ++ ('-' :: uuidHex)

/-- The test-client container name from `runner.run_test`:
`_generate_name("xrootd-test-client", version, "test")` plus the optional
suffix. -/
def testClientName (version suffix : Str) : Str :=
  generate_name (strL ("xrootd-test-client")) version (strL ("test")) ++ suffix

def digitVal (c : Char) : Nat :=
  if c = '0' then 0 else if c = '1' then 1 else if c = '2' then 2 else if c = '3' then 3
  else if c = '4' then 4 else if c = '5' then 5 else if c = '6' then 6 else if c = '7' then 7
  else if c = '8' then 8 else 9

def strToNat (s : Str) : Nat := s.foldl (fun a c => 10 * a + digitVal c) 0

/-! ### The parallel fan-out path `_run_parallel_clients` -/

/-- Events of the parallel path in `xrootdTesting._run_parallel_clients`:
server launch, one completion per submitted client future (`ok` is whether
`future.result()` returned rather than raised), the logged catch of a failed
future, and the single `cleanup_servers` call. -/
inductive PEvent : Type where
  | launchServers
  | clientDone (i : Nat) (ok : Bool)
  | caughtError (i : Nat)
  | cleanupServers
deriving DecidableEq

/-- The `as_completed` loop: each future is consumed exactly once, in
completion order `order`; `future.result()` re-raises a worker's exception,
which the `except Exception` clause catches and logs and then continues with
the remaining futures. -/
def clientEvents (outcome : Nat → Bool) : List Nat → List PEvent
  | [] => []
  | i :: rest =>
    PEvent.clientDone i (outcome i) ::
      (if outcome i then clientEvents outcome rest
       else PEvent.caughtError i :: clientEvents outcome rest)

/-- Function `_run_parallel_clients` as an event trace: no servers means an early
return; otherwise the servers are launched once, the `with ThreadPoolExecutor`
block submits `parallel_repeats` clients and waits for all of them
(`as_completed` yields every future; leaving the `with` block joins the
pool), and only then `cleanup_servers` runs, once. `order` is the completion
order of the fan-out indices, a permutation of `range parallel_repeats`. -/
def run_parallel_clients (numServers : Nat) (order : List Nat)
    (outcome : Nat → Bool) : List PEvent :=
  if numServers = 0 then []
  else PEvent.launchServers :: (clientEvents outcome order ++ [PEvent.cleanupServers])

/-! ### Best-effort server cleanup: `cleanup_servers` and `cleanup_server` -/

/-- Exceptions arising during cleanup; every constructor models a Python
`Exception` subclass (`BaseException`-only classes such as
`KeyboardInterrupt` are outside the model). -/
inductive CleanupExc : Type where
  | notFound
  | connectionError
  | apiError
  | s3Error
  | otherError
deriving DecidableEq

/-- Every modelled cleanup error is an `Exception` subclass, so the
`except Exception` clause of `xrootdTesting.cleanup_servers` catches it. -/
def isExceptionSubclass : CleanupExc → Bool
  | .notFound => true
  | .connectionError => true
  | .apiError => true
  | .s3Error => true
  | .otherError => true

/-- The engine/sink interactions of one runner's cleanup: entering
`_get_client`, `containers.get` (returning the `State.Running` flag),
`stop`, `logs`, the S3 upload, and the final force-remove. -/
structure RunnerCleanupEnv : Type where
  getClient : Except CleanupExc Unit
  getContainer : Except CleanupExc Bool
  stopC : Except CleanupExc Unit
  logsC : Except CleanupExc Str
  uploadC : Except CleanupExc Unit
  removeC : Except CleanupExc Unit

/-- The try-block body of one iteration of `xrootdTesting.cleanup_servers`:
get the container, stop it if running, collect logs, upload them when an S3
uploader is configured, and force-remove the container. -/
def cleanupOneBody (env : RunnerCleanupEnv) (hasUploader : Bool) : Except CleanupExc Unit := do
  env.getClient
  let running ← env.getContainer
  if running then env.stopC else pure ()
  let _logs ← env.logsC
  if hasUploader then env.uploadC else pure ()
  env.removeC

inductive CleanupOutcome : Type where
  | cleaned
  | warned
deriving DecidableEq

/-- The `except Exception as e: logger.warning(...)` clause around each
iteration: a caught exception turns into a logged warning, anything not an
`Exception` subclass would propagate. -/
def catchExceptionClause (r : Except CleanupExc Unit) : Except CleanupExc CleanupOutcome :=
  match r with
  | .ok _ => .ok .cleaned
  | .error e => if isExceptionSubclass e then .ok .warned else .error e

/-- Function `xrootdTesting.cleanup_servers`: the per-runner loop, each iteration
individually guarded. -/
def cleanup_servers (envs : List RunnerCleanupEnv) (hasUploader : Bool) :
    Except CleanupExc (List CleanupOutcome) :=
  match envs with
  | [] => .ok []
  | env :: rest => do
    let o ← catchExceptionClause (cleanupOneBody env hasUploader)
    let os ← cleanup_servers rest hasUploader
    pure (o :: os)

/-- Function `runner.cleanup_server`: outer try catching engine connection failures
(`requests.exceptions.ConnectionError`, `APIError`), inner try catching
`NotFound` from any step (get/stop/logs/upload/remove) as already clean. -/
def cleanup_server (env : RunnerCleanupEnv) (hasUploader : Bool) : Except CleanupExc Unit :=
  let inner : Except CleanupExc Unit := do
    let running ← env.getContainer
    if running then env.stopC else pure ()
    let _logs ← env.logsC
    if hasUploader then env.uploadC else pure ()
    env.removeC
  let withClient : Except CleanupExc Unit :=
    match env.getClient with
    | .error e => .error e
    | .ok _ =>
      match inner with
      | .error .notFound => .ok ()
      | r => r
  match withClient with
  | .error .connectionError => .ok ()
  | .error .apiError => .ok ()
  | r => r

/-! ### `run_test` -/

def isUnitChar (c : Char) : Bool := c = 'k' || c = 'M' || c = 'G'

def isDigitDot (c : Char) : Bool := c.isDigit || c = '.'

/-- Integer value of a digit string (most-significant first). -/
def natOfDigitsChars (s : Str) : Nat := s.foldl (fun a c => 10 * a + (c.toNat - 48)) 0

/-- Python `float` on the captured group `\d+(?:\.\d+)?` (always succeeds on
such strings): integer part plus fractional part. -/
def ratOfParts (ds : Str) (fs : Option Str) : Rat :=
  match fs with
  | none => (natOfDigitsChars ds : Rat)
  | some f => (natOfDigitsChars ds : Rat) + (natOfDigitsChars f : Rat) / (10 : Rat) ^ f.length

/-- Normalisation to MB/s shared by both branches: kB/s and `k` divide by
1024, MB/s and `M` stay, GB/s and `G` multiply by 1024. -/
def normRate (v : Rat) (u : Char) : Rat :=
  if u = 'k' then v / 1024 else if u = 'M' then v else v * 1024

/-- The tail `B/s]` of a bracketed rate annotation after the unit letter. -/
def matchUnitTail (r : Str) : Option (Char × Str) :=
  match r with
  | u :: tail =>
    if isUnitChar u ∧ (strL ("B/s]")).isPrefixOf tail then some (u, tail.drop 4) else none
  | [] => none

/-- The branch of the rate regex after the optional `\.\d+` group has been
resolved to `fs`: expects the unit letter and the closing `B/s]`. -/
def matchWithFrac (ds : Str) (fs : Option Str) (r : Str) :
    Option (Str × Option Str × Char × Str) :=
  match matchUnitTail r with
  | some (u, rest) => some (ds, fs, u, rest)
  | none => none

/-- After the integer digits: either a dot introduces mandatory fraction
digits, or the unit letter follows directly. -/
def matchAfterDigits (ds r1 : Str) : Option (Str × Option Str × Char × Str) :=
  match r1 with
  | [] => none
  | c1 :: r2 =>
    if c1 = '.' then
      if (r2.takeWhile Char.isDigit).isEmpty then none
      else matchWithFrac ds (some (r2.takeWhile Char.isDigit)) (r2.dropWhile Char.isDigit)
    else matchWithFrac ds none (c1 :: r2)

/-- One attempted match of `\[(\d+(?:\.\d+)?)([kMG]B/s)\]` at the start of
the string.  The greedy `\d+`/`\.\d+` munches are maximal-munch; no
backtracking can succeed where maximal-munch fails because the character
after a shorter digit run is itself a digit.  Returns the integer digits,
optional fraction digits, unit letter and the remaining suffix. -/
def matchRate : Str → Option (Str × Option Str × Char × Str)
  | [] => none
  | c :: r =>
    if c = '[' then
      if (r.takeWhile Char.isDigit).isEmpty then none
      else matchAfterDigits (r.takeWhile Char.isDigit) (r.dropWhile Char.isDigit)
    else none

/-- Python `re.findall`: scan left to right; a match resumes scanning after its
end, a failure advances one character. -/
def findRates : Nat → Str → List (Str × Option Str × Char)
  | 0, _ => []
  | _, [] => []
  | fuel + 1, c :: rest =>
    match matchRate (c :: rest) with
    | some (ds, fs, u, r) => (ds, fs, u) :: findRates fuel r
    | none => findRates fuel rest

def findRateMatches (s : Str) : List (Str × Option Str × Char) := findRates s.length s

/-- Python `matches[-1]`. -/
def lastOf {α : Type} : List α → Option α
  | [] => none
  | [a] => some a
  | _ :: b :: l => lastOf (b :: l)

/-- The line boundaries recognised by Python `str.splitlines`: LF, CR,
vertical tab, form feed, the file/group/record separators 0x1C-0x1E, NEL
(0x85), and the Unicode line and paragraph separators U+2028/U+2029 (CRLF
is handled as a single boundary in `splitlinesAux`). -/
def isLineBreak (c : Char) : Bool :=
  c.toNat = 10 || c.toNat = 13 || c.toNat = 11 || c.toNat = 12 ||
  c.toNat = 28 || c.toNat = 29 || c.toNat = 30 ||
  c.toNat = 133 || c.toNat = 8232 || c.toNat = 8233

/-- Python `str.splitlines`: every `isLineBreak` character ends a line, a
CRLF pair counts as one boundary, and a trailing terminator produces no
extra empty line. -/
def splitlinesAux : Str → Str → List Str
  | [], acc => if acc.isEmpty then [] else [acc.reverse]
  | c :: rest, acc =>
    if c.toNat = 13 then
      match rest with
      | d :: rest2 =>
        if d.toNat = 10 then acc.reverse :: splitlinesAux rest2 []
        else acc.reverse :: splitlinesAux (d :: rest2) []
      | [] => [acc.reverse]
    else if isLineBreak c then acc.reverse :: splitlinesAux rest []
    else splitlinesAux rest (c :: acc)

def pySplitlines (s : Str) : List Str := splitlinesAux s []

/-- The characters Python `str.isspace` (and hence no-argument `str.split`)
treats as whitespace: 0x09-0x0D, 0x1C-0x1F, the space, NEL (0x85), NBSP
(0xA0), Ogham space (0x1680), the range U+2000-U+200A, the line and
paragraph separators U+2028/U+2029, U+202F, U+205F and U+3000. -/
def isPyWS (c : Char) : Bool :=
  (9 ≤ c.toNat && c.toNat ≤ 13) || (28 ≤ c.toNat && c.toNat ≤ 31) ||
  c.toNat = 32 || c.toNat = 133 || c.toNat = 160 || c.toNat = 5760 ||
  (8192 ≤ c.toNat && c.toNat ≤ 8202) || c.toNat = 8232 || c.toNat = 8233 ||
  c.toNat = 8239 || c.toNat = 8287 || c.toNat = 12288

/-- Python `line.strip().split()`: split on whitespace runs, dropping empty fields
(`strip` is absorbed by no-argument `split`). -/
def splitWSAux : Str → Str → List Str
  | [], acc => if acc.isEmpty then [] else [acc.reverse]
  | c :: rest, acc =>
    if isPyWS c then
      (if acc.isEmpty then splitWSAux rest [] else acc.reverse :: splitWSAux rest [])
    else splitWSAux rest (c :: acc)

def pySplitWS (s : Str) : List Str := splitWSAux s []

/-- Python `re.match(r"([0-9.]+)([kMG])", speed_str)`: maximal munch of digits and
dots followed immediately by a unit letter (backtracking cannot help: any
shorter munch is followed by a digit or dot, which is not a unit letter). -/
def matchCurlToken (s : Str) : Option (Str × Char) :=
  let p := s.takeWhile isDigitDot
  if p.isEmpty then none
  else
    match s.dropWhile isDigitDot with
    | u :: _ => if isUnitChar u then some (p, u) else none
    | [] => none

/-- Python `float` on a `[0-9.]+` token: defined iff it has at least one
digit and at most one dot; splits at the dot. -/
def pyFloatQ (p : Str) : Option Rat :=
  if p.any Char.isDigit ∧ p.count '.' ≤ 1 then
    some ((natOfDigitsChars (p.takeWhile (fun c => c ≠ '.')) : Rat) +
      (natOfDigitsChars ((p.dropWhile (fun c => c ≠ '.')).drop 1) : Rat) /
        (10 : Rat) ^ ((p.dropWhile (fun c => c ≠ '.')).drop 1).length)
  else none

/-- One iteration of the curl fallback loop: `none` when the line does not
update `curl_speed`, `some (.ok v)` when it sets it to `v` (already
normalised), `some (.error ())` when `float(value)` raises `ValueError`. -/
def curlLineResult (line : Str) : Option (Except Unit Rat) :=
  let cols := pySplitWS line
  if 12 ≤ cols.length ∧ cols.headD [] = strL ("100") then
    match matchCurlToken (cols.getD 6 []) with
    | some (p, u) =>
      match pyFloatQ p with
      | some v => some (.ok (normRate v u))
      | none => some (.error ())
    | none => none
  else none

/-- The `for line in logs.splitlines()` loop carrying `curl_speed`. -/
def curlScan : Option Rat → List Str → Except Unit (Option Rat)
  | acc, [] => .ok acc
  | acc, l :: ls =>
    match curlLineResult l with
    | some (.ok v) => curlScan (some v) ls
    | some (.error _) => .error ()
    | none => curlScan acc ls

/-- Function `xrootdTesting.extract_transfer_speed`: last bracketed rate if any,
else the curl fallback, else `None`; a `ValueError` from `float` on a
malformed curl speed token propagates. -/
def extract_transfer_speed (logs : Str) : Except Unit (Option Rat) :=
  match lastOf (findRateMatches logs) with
  | some (ds, fs, u) => .ok (some (normRate (ratOfParts ds fs) u))
  | none => curlScan none (pySplitlines logs)

/-! Specification-level descriptions of the two patterns. -/

def fracPart : Option Str → Str
  | none => []
  | some f => '.' :: f

/-- The literal text of a bracketed rate annotation. -/
def rateTok (ds : Str) (fs : Option Str) (u : Char) : Str :=
  '[' :: (ds ++ fracPart fs ++ u :: strL ("B/s]"))

/-- Well-formedness of the annotation pieces: non-empty digit strings and a
unit letter. -/
def WFTok (ds : Str) (fs : Option Str) (u : Char) : Prop :=
  ds ≠ [] ∧ (∀ c ∈ ds, c.isDigit = true)
    ∧ (∀ f, fs = some f → f ≠ [] ∧ ∀ c ∈ f, c.isDigit = true)
    ∧ isUnitChar u = true

/-- The text contains a bracketed rate annotation. -/
def ContainsTok (s : Str) : Prop :=
  ∃ pre ds fs u post, WFTok ds fs u ∧ s = pre ++ rateTok ds fs u ++ post

/-- The line is a curl progress-completion line whose 7th column starts with
a digits-and-dots run followed by a unit letter (the code's fallback
pattern). -/
def SpecCurlMatch (line : Str) : Prop :=
  12 ≤ (pySplitWS line).length ∧ (pySplitWS line).headD [] = strL ("100")
    ∧ ∃ p u r, (pySplitWS line).getD 6 [] = p ++ u :: r ∧ p ≠ []
      ∧ (∀ c ∈ p, isDigitDot c = true) ∧ isUnitChar u = true

/-- The line is a curl completion line with a parseable speed token whose
normalised value is `q`. -/
def SpecCurlValue (line : Str) (q : Rat) : Prop :=
  12 ≤ (pySplitWS line).length ∧ (pySplitWS line).headD [] = strL ("100")
    ∧ ∃ p u r v, (pySplitWS line).getD 6 [] = p ++ u :: r ∧ p ≠ []
      ∧ (∀ c ∈ p, isDigitDot c = true) ∧ isUnitChar u = true
      ∧ pyFloatQ p = some v ∧ q = normRate v u

/-- Every curl-pattern-matching line of the text has a parseable (at least
one digit, at most one dot) speed token, so no line makes `float` raise. -/
def GoodCurlLines (s : Str) : Prop :=
  ∀ line ∈ pySplitlines s, ∀ p u r,
    (pySplitWS line).getD 6 [] = p ++ u :: r → p ≠ [] →
    (∀ c ∈ p, isDigitDot c = true) → isUnitChar u = true →
    12 ≤ (pySplitWS line).length → (pySplitWS line).headD [] = strL ("100") →
    pyFloatQ p ≠ none

/-- A line whose speed token (if the line matches the pattern at all) parses
as a float. -/
def LineGood (line : Str) : Prop :=
  ∀ p u r, (pySplitWS line).getD 6 [] = p ++ u :: r → p ≠ [] →
    (∀ c ∈ p, isDigitDot c = true) → isUnitChar u = true →
    12 ≤ (pySplitWS line).length → (pySplitWS line).headD [] = strL ("100") →
    pyFloatQ p ≠ none

/-! ### `_run_test_client_and_collect` and `run_tests_from_folder` -/

theorem hasInfixB_iff (pat : Str) : ∀ s : Str, hasInfixB pat s = true ↔ pat <:+: s := by
  intro s
  induction s with
  | nil =>
    simp only [hasInfixB, List.isEmpty_iff]
    constructor
    · rintro rfl; exact List.infix_rfl
    · intro h; exact List.eq_nil_of_infix_nil h
  | cons c rest ih =>
    simp only [hasInfixB, Bool.or_eq_true]
    constructor
    · rintro (hp | hr)
      · exact List.IsPrefix.isInfix ( List.isPrefixOf_iff_prefix.mp hp)
      · exact List.infix_cons (ih.mp hr)
    · intro h
      rcases h with ⟨s₁, s₂, heq⟩
      cases s₁ with
      | nil =>
        left
        exact List.isPrefixOf_iff_prefix.mpr ⟨s₂, by simpa using heq⟩
      | cons a s₁ =>
        right
        refine ih.mpr ⟨s₁, s₂, ?_⟩
        simp only [List.cons_append, List.cons.injEq] at heq
        exact heq.2

/-! ### Basic lemmas about `pyReplace` -/

theorem pyReplaceFuel_of_not_infix (pat repl : Str) :
    ∀ (fuel : Nat) (s : Str), ¬ pat <:+: s → pyReplaceFuel pat repl fuel s = s := by
  intro fuel
  induction fuel with
  | zero => intro s _; cases s <;> rfl
  | succ f ih =>
    intro s hs
    cases s with
    | nil => rfl
    | cons c rest =>
      rw [pyReplaceFuel]
      have hpre : ¬ (pat ≠ [] ∧ pat.isPrefixOf (c :: rest)) := by
        rintro ⟨-, hp⟩
        exact hs ( List.IsPrefix.isInfix ( List.isPrefixOf_iff_prefix.mp hp))
      rw [if_neg hpre]
      have : ¬ pat <:+: rest := fun h => hs (List.infix_cons h)
      rw [ih rest this]

theorem pyReplace_of_not_infix (pat repl s : Str) (h : ¬ pat <:+: s) :
    pyReplace pat repl s = s :=
  pyReplaceFuel_of_not_infix pat repl s.length s h

theorem pyReplaceFuel_fuel_congr (pat repl : Str) :
    ∀ (f₁ f₂ : Nat) (s : Str), s.length ≤ f₁ → s.length ≤ f₂ →
      pyReplaceFuel pat repl f₁ s = pyReplaceFuel pat repl f₂ s := by
  intro f₁
  induction f₁ with
  | zero =>
    intro f₂ s h1 _
    have : s = [] := List.eq_nil_of_length_eq_zero (Nat.le_zero.mp h1)
    subst this; cases f₂ <;> rfl
  | succ g ih =>
    intro f₂ s h1 h2
    cases s with
    | nil => cases f₂ <;> rfl
    | cons c rest =>
      cases f₂ with
      | zero => simp at h2
      | succ h =>
        rw [pyReplaceFuel, pyReplaceFuel]
        by_cases hc : pat ≠ [] ∧ pat.isPrefixOf (c :: rest)
        · rw [if_pos hc, if_pos hc]
          have hlen : ((c :: rest).drop pat.length).length ≤ rest.length := by
            have hp1 : 1 ≤ pat.length := by
              cases pat with
              | nil => exact absurd rfl hc.1
              | cons _ _ => simp
            simp only [List.length_drop, List.length_cons]
            omega
          rw [ih h ((c :: rest).drop pat.length)
            (le_trans hlen (Nat.le_of_succ_le_succ h1))
            (le_trans hlen (Nat.le_of_succ_le_succ h2))]
        · rw [if_neg hc, if_neg hc]
          rw [ih h rest (Nat.le_of_succ_le_succ h1) (Nat.le_of_succ_le_succ h2)]

theorem pyReplaceFuel_full (pat repl : Str) (f : Nat) (s : Str) (h : s.length ≤ f) :
    pyReplaceFuel pat repl f s = pyReplace pat repl s :=
  pyReplaceFuel_fuel_congr pat repl f s.length s h le_rfl

/-- The leftmost-occurrence equation for Python `replace`: if the pattern
occurs at position `a.length` and at no earlier position, that occurrence is
rewritten and scanning continues after it. -/
theorem pyReplace_leftmost (pat repl : Str) (hpat : pat ≠ []) :
    ∀ (a b : Str),
      (∀ k, k < a.length → ¬ pat.isPrefixOf ((a ++ pat ++ b).drop k)) →
      pyReplace pat repl (a ++ pat ++ b) = a ++ repl ++ pyReplace pat repl b := by
  intro a
  induction a with
  | nil =>
    intro b _
    cases pat with
    | nil => exact absurd rfl hpat
    | cons p pt =>
      simp only [List.nil_append]
      rw [pyReplace]
      have hcons : (p :: pt) ++ b = p :: (pt ++ b) := rfl
      rw [hcons]
      simp only [List.length_cons]
      rw [pyReplaceFuel]
      have hpre : (p :: pt) ≠ [] ∧ (p :: pt).isPrefixOf (p :: (pt ++ b)) := by
        refine ⟨List.cons_ne_nil p pt, List.isPrefixOf_iff_prefix.mpr ?_⟩
        exact ⟨b, rfl⟩
      rw [if_pos hpre]
      have hdrop : (p :: (pt ++ b)).drop (p :: pt).length = b := by
        have : (p :: (pt ++ b)) = (p :: pt) ++ b := rfl
        rw [this, List.drop_left]
      rw [hdrop]
      rw [pyReplaceFuel_full]
      simp only [List.length_cons, List.length_append]
      omega
  | cons c a' ih =>
    intro b hleft
    have hs : (c :: a') ++ pat ++ b = c :: (a' ++ pat ++ b) := rfl
    rw [pyReplace, hs]
    simp only [List.length_cons]
    rw [pyReplaceFuel]
    have hnot : ¬ (pat ≠ [] ∧ pat.isPrefixOf (c :: (a' ++ pat ++ b))) := by
      rintro ⟨-, hp⟩
      have h0 := hleft 0 (by simp)
      rw [List.drop_zero] at h0
      exact h0 (by rw [hs]; exact hp)
    rw [if_neg hnot]
    have hfull : pyReplaceFuel pat repl (a' ++ pat ++ b).length (a' ++ pat ++ b)
        = pyReplace pat repl (a' ++ pat ++ b) := rfl
    rw [hfull]
    rw [ih b ?_]
    · simp
    · intro k hk
      have := hleft (k + 1) (by simpa using Nat.succ_lt_succ hk)
      rw [hs] at this
      simpa using this

/-! Fixpoint lemmas: a token-free tree is unchanged by `substitute_path`. -/

mutual

theorem substitute_path_fix (tp : Str) :
    ∀ v : PyVal, valTokenFree v = true → substitute_path tp v = v
  | .str s, h => by
      have hni : ¬ TOKEN <:+: s := by
        intro hin
        have hb := (hasInfixB_iff TOKEN s).mpr hin
        simp [valTokenFree, strTokenFree, hb] at h
      simp [substitute_path, pyReplace_of_not_infix _ _ _ hni]
  | .intv _, _ => rfl
  | .boolv _, _ => rfl
  | .nonev, _ => rfl
  | .list l, h => by
      simp only [substitute_path]
      rw [substList_fix tp l (by simpa [valTokenFree] using h)]
  | .dict kvs, h => by
      simp only [substitute_path]
      rw [substKVs_fix tp kvs (by simpa [valTokenFree] using h)]

theorem substList_fix (tp : Str) :
    ∀ l : List PyVal, listTokenFree l = true → substList tp l = l
  | [], _ => rfl
  | v :: vs, h => by
      simp only [listTokenFree, Bool.and_eq_true] at h
      simp only [substList]
      rw [substitute_path_fix tp v h.1, substList_fix tp vs h.2]

theorem substKVs_fix (tp : Str) :
    ∀ kvs : List (PyVal × PyVal), kvsTokenFree kvs = true → substKVs tp kvs = kvs
  | [], _ => rfl
  | (k, v) :: kvs, h => by
      simp only [kvsTokenFree, Bool.and_eq_true] at h
      simp only [substKVs]
      rw [substitute_path_fix tp k h.1.1, substitute_path_fix tp v h.1.2,
        substKVs_fix tp kvs h.2]

end

theorem substList_eq_map (tp : Str) :
    ∀ l : List PyVal, substList tp l = l.map (substitute_path tp)
  | [] => rfl
  | v :: vs => by simp only [substList, List.map_cons, substList_eq_map tp vs]

theorem substKVs_eq_map (tp : Str) :
    ∀ kvs : List (PyVal × PyVal),
      substKVs tp kvs = kvs.map (fun p => (substitute_path tp p.1, substitute_path tp p.2))
  | [] => rfl
  | (k, v) :: kvs => by simp only [substKVs, List.map_cons, substKVs_eq_map tp kvs]

theorem substitute_path_str_eq (tp s : Str) :
    substitute_path tp (.str s) = .str (pyReplace TOKEN tp s) := by
  simp [substitute_path]

/-- Claim C4 (amended): `substitute_path` rewrites every string at any depth
(including dict keys and nested list elements) through Python-`replace`
semantics, leaves non-string leaves unchanged, and a second application is a
no-op whenever the first application's result is token-free (which holds in
particular when the substitution value neither contains the token nor
recreates it at a replacement boundary); moreover the leftmost token
occurrence in a string is always replaced and scanning continues after it. -/
theorem substitute_path_spec :
    (∀ (tp : Str) (v : PyVal), valTokenFree v = true → substitute_path tp v = v)
    ∧ (∀ (tp : Str) (v : PyVal), valTokenFree (substitute_path tp v) = true →
        substitute_path tp (substitute_path tp v) = substitute_path tp v)
    ∧ (∀ tp s : Str, substitute_path tp (.str s) = .str (pyReplace TOKEN tp s))
    ∧ (∀ (tp : Str) (l : List PyVal),
        substitute_path tp (.list l) = .list (l.map (substitute_path tp)))
    ∧ (∀ (tp : Str) (kvs : List (PyVal × PyVal)),
        substitute_path tp (.dict kvs) =
          .dict (kvs.map (fun p => (substitute_path tp p.1, substitute_path tp p.2))))
    ∧ (∀ (tp : Str) (n : Int), substitute_path tp (.intv n) = .intv n)
    ∧ (∀ (tp a b : Str),
        (∀ k, k < a.length → ¬ TOKEN.isPrefixOf ((a ++ TOKEN ++ b).drop k)) →
        pyReplace TOKEN tp (a ++ TOKEN ++ b) = a ++ tp ++ pyReplace TOKEN tp b) := by
  refine ⟨substitute_path_fix, ?_, substitute_path_str_eq, ?_, ?_, ?_, ?_⟩
  · intro tp v h
    exact substitute_path_fix tp (substitute_path tp v) h
  · intro tp l
    simp [substitute_path, substList_eq_map]
  · intro tp kvs
    simp [substitute_path, substKVs_eq_map]
  · intro tp n
    rfl
  · intro tp a b hleft
    exact pyReplace_leftmost TOKEN tp (by simp [TOKEN, strL]) a b hleft

/-- Claim C4, counterexample to idempotency as stated: with substitution value
"XTEST_PATH" (which contains the token), applying `substitute_path` twice to
the string "TEST_PATH" is not a no-op. -/
theorem substitute_path_not_idempotent :
    substitute_path (strL ("XTEST_PATH"))
        (substitute_path (strL ("XTEST_PATH")) (.str (strL ("TEST_PATH"))))
      ≠ substitute_path (strL ("XTEST_PATH")) (.str (strL ("TEST_PATH"))) := by
  rw [substitute_path_str_eq, substitute_path_str_eq]
  intro h
  have h2 := PyVal.str.inj h
  exact absurd h2 (by decide)

/-- Witness for the amended C4: a concrete substitution on a nested tree with
a token in a dict key and a list element, where the second application is a
no-op. -/
theorem substitute_path_spec_witness :
    substitute_path (strL ("/srv"))
        (substitute_path (strL ("/srv"))
          (.dict [(.str (strL ("TEST_PATH/k")), .list [.str (strL ("x TEST_PATH y")), .intv 7])]))
      = substitute_path (strL ("/srv"))
          (.dict [(.str (strL ("TEST_PATH/k")), .list [.str (strL ("x TEST_PATH y")), .intv 7])]) := by
  apply substitute_path_spec.2.1
  simp only [substitute_path, substKVs, substList, valTokenFree, kvsTokenFree, listTokenFree]
  decide

theorem retryFrom_ok {α : Type} (op : Nat → Except PyErr α) (v : α) :
    ∀ (k attempt fuel : Nat), k ≤ fuel →
      (∀ i, attempt ≤ i → i < attempt + k → ∃ e, op i = .error e ∧ isTransientErr e = true) →
      op (attempt + k) = .ok v →
      retryFrom op fuel attempt = (.ok v, k + 1) := by
  intro k
  induction k with
  | zero =>
    intro attempt fuel _ _ hok
    rw [Nat.add_zero] at hok
    cases fuel with
    | zero => rw [retryFrom, hok]
    | succ f => rw [retryFrom, hok]
  | succ k ih =>
    intro attempt fuel hk hfail hok
    obtain ⟨e, he, htr⟩ := hfail attempt le_rfl (by omega)
    cases fuel with
    | zero => omega
    | succ f =>
      rw [retryFrom, he]
      simp only [htr, if_true]
      have hrec := ih (attempt + 1) f (by omega)
        (fun i h1 h2 => hfail i (by omega) (by omega))
        (by rw [show attempt + 1 + k = attempt + (k + 1) by omega]; exact hok)
      rw [hrec]

theorem retryFrom_exhaust {α : Type} (op : Nat → Except PyErr α) :
    ∀ (fuel attempt : Nat),
      (∀ i, attempt ≤ i → i ≤ attempt + fuel → ∃ e, op i = .error e ∧ isTransientErr e = true) →
      ∃ e, op (attempt + fuel) = .error e ∧
        retryFrom op fuel attempt = (.error e, fuel + 1) := by
  intro fuel
  induction fuel with
  | zero =>
    intro attempt hfail
    obtain ⟨e, he, _⟩ := hfail attempt le_rfl (by omega)
    exact ⟨e, by rwa [Nat.add_zero], by rw [retryFrom, he]⟩
  | succ f ih =>
    intro attempt hfail
    obtain ⟨e, he, htr⟩ := hfail attempt le_rfl (by omega)
    obtain ⟨e', he', hrec⟩ := ih (attempt + 1) (fun i h1 h2 => hfail i (by omega) (by omega))
    refine ⟨e', by rwa [show attempt + (f + 1) = attempt + 1 + f by omega], ?_⟩
    rw [retryFrom, he]
    simp only [htr, if_true]
    rw [hrec]

/-- Claim C1: if the operation fails transiently on its first `k` invocations
and returns a value on invocation `k+1` with `k < MAX_RETRIES`, the wrapper
returns that value after exactly `k+1` invocations; if every invocation fails
transiently, exactly `MAX_RETRIES` invocations happen and the last error is
re-raised; a non-transient error on the first invocation propagates
immediately after exactly one invocation. -/
theorem run_test_client_with_retries_spec :
    (∀ {α : Type} (op : Nat → Except PyErr α) (k : Nat) (v : α),
      k < MAX_RETRIES →
      (∀ i, 1 ≤ i → i ≤ k → ∃ e, op i = .error e ∧ isTransientErr e = true) →
      op (k + 1) = .ok v →
      run_test_client_with_retries op = (.ok v, k + 1))
    ∧ (∀ {α : Type} (op : Nat → Except PyErr α),
      (∀ i, 1 ≤ i → i ≤ MAX_RETRIES → ∃ e, op i = .error e ∧ isTransientErr e = true) →
      ∃ e, op MAX_RETRIES = .error e ∧
        run_test_client_with_retries op = (.error e, MAX_RETRIES))
    ∧ (∀ {α : Type} (op : Nat → Except PyErr α) (e : PyErr),
      op 1 = .error e → isTransientErr e = false →
      run_test_client_with_retries op = (.error e, 1)) := by
  refine ⟨?_, ?_, ?_⟩
  · intro α op k v hk hfail hok
    have := retryFrom_ok op v k 1 (MAX_RETRIES - 1)
      (by simp [MAX_RETRIES] at hk ⊢; omega)
      (fun i h1 h2 => hfail i h1 (by omega))
      (by rwa [Nat.add_comm])
    simpa [run_test_client_with_retries] using this
  · intro α op hfail
    have := retryFrom_exhaust op (MAX_RETRIES - 1) 1
      (fun i h1 h2 => hfail i h1 (by simp [MAX_RETRIES] at h2 ⊢; omega))
    simp only [MAX_RETRIES] at this ⊢
    obtain ⟨e, he, hr⟩ := this
    exact ⟨e, by simpa using he, by simpa [run_test_client_with_retries, MAX_RETRIES] using hr⟩
  · intro α op e he htr
    rw [run_test_client_with_retries, show MAX_RETRIES - 1 = 1 + 1 from rfl, retryFrom, he]
    simp [htr]

/-- Witness for C1: an operation failing transiently twice then succeeding is
invoked exactly 3 times and its value is returned; one failing transiently
forever is invoked exactly 3 times and the attempt-3 error is re-raised; one
failing non-transiently is invoked exactly once. -/
theorem run_test_client_with_retries_spec_witness :
    run_test_client_with_retries
        (fun i => if i < 3 then .error (.osError i) else .ok (42 : Nat)) = (.ok 42, 3)
    ∧ run_test_client_with_retries (fun i => (.error (.timeoutExpired i) : Except PyErr Nat))
        = (.error (.timeoutExpired 3), 3)
    ∧ run_test_client_with_retries
        (fun i => (.error (.otherExc i) : Except PyErr Nat)) = (.error (.otherExc 1), 1) := by
  refine ⟨?_, ?_, ?_⟩
  · exact run_test_client_with_retries_spec.1
      (fun i => if i < 3 then .error (.osError i) else .ok (42 : Nat)) 2 42 (by decide)
      (fun i h1 h2 => ⟨.osError i, by
        have h3 : i < 3 := by omega
        simp [h3], rfl⟩) rfl
  · obtain ⟨e, he, hr⟩ := run_test_client_with_retries_spec.2.1
      (fun i => (.error (.timeoutExpired i) : Except PyErr Nat))
      (fun i h1 h2 => ⟨.timeoutExpired i, rfl, rfl⟩)
    have h3 : PyErr.timeoutExpired 3 = e := by
      have h := he
      simp [MAX_RETRIES] at h
      exact h
    rwa [← h3] at hr
  · exact run_test_client_with_retries_spec.2.2
      (fun i => (.error (.otherExc i) : Except PyErr Nat)) (.otherExc 1) rfl rfl

theorem waitLoop_none (c : Nat → Bool) :
    ∀ (fuel start : Nat), (∀ j, start ≤ j → j < start + fuel → c j = false) →
      waitLoop c fuel start = (.error (), fuel) := by
  intro fuel
  induction fuel with
  | zero => intro start _; rfl
  | succ f ih =>
    intro start h
    rw [waitLoop, h start le_rfl (by omega), ih (start + 1) (fun j h1 h2 => h j (by omega) (by omega))]
    simp

theorem waitLoop_first (c : Nat → Bool) :
    ∀ (fuel start i : Nat), start ≤ i → i < start + fuel →
      (∀ j, start ≤ j → j < i → c j = false) → c i = true →
      waitLoop c fuel start = (.ok i, i - start + 1) := by
  intro fuel
  induction fuel with
  | zero => intro start i h1 h2 _ _; omega
  | succ f ih =>
    intro start i h1 h2 hbefore hi
    by_cases hs : c start = true
    · have heq : i = start := by
        by_contra hne
        have hsf : c start = false := hbefore start le_rfl (by omega)
        rw [hs] at hsf
        simp at hsf
      subst heq
      rw [waitLoop]
      simp [hs]
    · have hs' : c start = false := by simpa using hs
      have hlow : start + 1 ≤ i := by
        rcases Nat.lt_or_ge start i with h | h
        · omega
        · have heq : i = start := by omega
          subst heq
          rw [hi] at hs'
          simp at hs'
      have hrec := ih (start + 1) i hlow (by omega)
        (fun j hj1 hj2 => hbefore j (by omega) hj2) hi
      rw [waitLoop]
      simp only [hs', Bool.false_eq_true, if_false, hrec]
      rw [Prod.mk.injEq]
      exact ⟨rfl, by omega⟩

theorem waitLoop_attempts_le (c : Nat → Bool) :
    ∀ (fuel start : Nat), (waitLoop c fuel start).2 ≤ fuel := by
  intro fuel
  induction fuel with
  | zero => intro start; simp [waitLoop]
  | succ f ih =>
    intro start
    by_cases hs : c start = true
    · rw [waitLoop]
      simp [hs]
    · have hs' : c start = false := by simpa using hs
      have := ih (start + 1)
      rw [waitLoop]
      simp only [hs', Bool.false_eq_true, if_false]
      omega

theorem waitLoop_sound (c : Nat → Bool) :
    ∀ (fuel start i : Nat), (waitLoop c fuel start).1 = .ok i →
      start ≤ i ∧ c i = true ∧ ∀ j, start ≤ j → j < i → c j = false := by
  intro fuel
  induction fuel with
  | zero => intro start i h; simp [waitLoop] at h
  | succ f ih =>
    intro start i h
    rw [waitLoop] at h
    by_cases hs : c start = true
    · simp only [hs, if_true] at h
      have : start = i := Except.ok.inj h
      subst this
      exact ⟨le_rfl, hs, fun j h1 h2 => by omega⟩
    · have hs' : c start = false := by simpa using hs
      simp only [hs', if_false] at h
      obtain ⟨h1, h2, h3⟩ := ih (start + 1) i h
      refine ⟨by omega, h2, fun j hj1 hj2 => ?_⟩
      rcases Nat.lt_or_ge j (start + 1) with hj | hj
      · have : j = start := by omega
        subst this; exact hs'
      · exact h3 j hj hj2

/-- Claim C5: the readiness probe makes at most `timeout` connection attempts
(one per second), returns on the first attempt that connects, so against a
socket that becomes connectable after `t` seconds it succeeds iff
`t < timeout` (in `t+1` attempts), and raises the "service not ready" error
after exactly `timeout` failed attempts otherwise. -/
theorem wait_for_service_spec :
    (∀ t timeout : Nat, t < timeout →
      wait_for_service (fun i => decide (t ≤ i)) timeout = (.ok t, t + 1))
    ∧ (∀ t timeout : Nat, timeout ≤ t →
      wait_for_service (fun i => decide (t ≤ i)) timeout = (.error (), timeout))
    ∧ (∀ (c : Nat → Bool) (timeout : Nat), (wait_for_service c timeout).2 ≤ timeout)
    ∧ (∀ (c : Nat → Bool) (timeout i : Nat), (wait_for_service c timeout).1 = .ok i →
      c i = true ∧ ∀ j, j < i → c j = false) := by
  refine ⟨?_, ?_, ?_, ?_⟩
  · intro t timeout ht
    have := waitLoop_first (fun i => decide (t ≤ i)) timeout 0 t (by omega) (by omega)
      (fun j _ hj => by simp; omega) (by simp)
    simpa [wait_for_service] using this
  · intro t timeout ht
    exact waitLoop_none (fun i => decide (t ≤ i)) timeout 0
      (fun j _ hj => by simp; omega)
  · intro c timeout
    exact waitLoop_attempts_le c timeout 0
  · intro c timeout i h
    obtain ⟨-, h2, h3⟩ := waitLoop_sound c timeout 0 i h
    exact ⟨h2, fun j hj => h3 j (Nat.zero_le j) hj⟩

/-- Witness for C5: a socket connectable from second 2 with timeout 30
succeeds at attempt 3; with timeout 2 it fails after exactly 2 attempts. -/
theorem wait_for_service_spec_witness :
    wait_for_service (fun i => decide (2 ≤ i)) 30 = (.ok 2, 3)
    ∧ wait_for_service (fun i => decide (2 ≤ i)) 2 = (.error (), 2) := by
  exact ⟨wait_for_service_spec.1 2 30 (by decide), wait_for_service_spec.2.1 2 2 (by decide)⟩

/-- Claim C6: with the engine reachable, `launch_server` performs the
readiness probe against (host, port) iff the configuration is not the
sentinel (exact echo-and-sleep entrypoint with empty volumes); for
non-sentinel configurations the probe happens right after the container
start; the default configuration built by `build_server_config` is the
sentinel, so it skips probing. -/
theorem launch_server_probe_iff :
    (∀ sc : ServerConfig, LaunchEvent.probed sc.host sc.port ∈ launch_server true sc ↔
      ¬(sc.entrypoint = sentinelEntrypoint ∧ sc.volumes = []))
    ∧ (∀ sc : ServerConfig, is_default sc = false →
      launch_server true sc = [.cleanupStale, .removedExisting, .started,
        .probed sc.host sc.port])
    ∧ (∀ (tp host : Str) (port : Option Nat),
      is_default (build_server_config none tp host port) = true
        ∧ LaunchEvent.probed host (port.getD 9999)
            ∉ launch_server true (build_server_config none tp host port)) := by
  refine ⟨?_, ?_, ?_⟩
  · intro sc
    by_cases hd : is_default sc = true
    · simp only [launch_server, if_pos hd, hd]
      simp only [is_default, Bool.and_eq_true, beq_iff_eq, List.isEmpty_iff] at hd
      simp [hd]
    · have hd' : is_default sc = false := by simpa using hd
      simp only [is_default, Bool.and_eq_true, beq_iff_eq, List.isEmpty_iff] at hd
      simp only [launch_server, if_true, hd', if_false]
      simp [hd]
  · intro sc hd
    simp [launch_server, hd]
  · intro tp host port
    refine ⟨by simp [is_default, build_server_config], ?_⟩
    have hd : is_default (build_server_config none tp host port) = true := by
      simp [is_default, build_server_config]
    simp [launch_server, hd]

/-- Witness for C6: a non-sentinel configuration (an xrootd entrypoint with a
volume) is probed right after start; the default busybox configuration is
the sentinel and is not probed. -/
theorem launch_server_probe_iff_witness :
    launch_server true
        { entrypoint := [strL ("/usr/bin/xrootd")], volumes := [(strL ("/data"), strL ("/data"))],
          host := strL ("localhost"), port := 1094 }
      = [.cleanupStale, .removedExisting, .started, .probed (strL ("localhost")) 1094]
    ∧ is_default (build_server_config none (strL ("/tmp")) (strL ("localhost")) none) = true := by
  constructor
  · exact launch_server_probe_iff.2.1
      { entrypoint := [strL ("/usr/bin/xrootd")], volumes := [(strL ("/data"), strL ("/data"))],
        host := strL ("localhost"), port := 1094 } (by decide)
  · exact (launch_server_probe_iff.2.2 (strL ("/tmp")) (strL ("localhost")) none).1

theorem digitVal_digitChar {d : Nat} (h : d < 10) : digitVal (digitChar d) = d := by
  interval_cases d <;> decide

theorem foldl_digits_horner :
    ∀ (l : List Nat) (a : Nat),
      List.foldl (fun x d => 10 * x + d) a l.reverse = a * 10 ^ l.length + Nat.ofDigits 10 l := by
  intro l
  induction l with
  | nil => intro a; simp
  | cons d t ih =>
    intro a
    simp only [List.reverse_cons, List.foldl_append, List.foldl_cons, List.foldl_nil, ih,
      Nat.ofDigits_cons, List.length_cons]
    ring

theorem foldl_digitVal_digitChar :
    ∀ (l : List Nat), (∀ d ∈ l, d < 10) → ∀ a : Nat,
      List.foldl (fun x d => 10 * x + digitVal (digitChar d)) a l =
        List.foldl (fun x d => 10 * x + d) a l := by
  intro l
  induction l with
  | nil => intro _ a; rfl
  | cons d t ih =>
    intro h a
    simp only [List.foldl_cons]
    rw [digitVal_digitChar (h d (List.mem_cons_self d t)),
      ih (fun x hx => h x (List.mem_cons_of_mem d hx))]

theorem strToNat_natToStr (n : Nat) : strToNat (natToStr n) = n := by
  by_cases h0 : n = 0
  · subst h0; decide
  · rw [natToStr, if_neg h0, strToNat, List.foldl_map]
    have hlt : ∀ d ∈ (Nat.digits 10 n).reverse, d < 10 :=
      fun d hd => Nat.digits_lt_base (by norm_num) (List.mem_reverse.mp hd)
    rw [foldl_digitVal_digitChar (Nat.digits 10 n).reverse hlt 0,
      foldl_digits_horner, Nat.zero_mul, Nat.zero_add, Nat.ofDigits_digits]

theorem natToStr_injective {m n : Nat} (h : natToStr m = natToStr n) : m = n := by
  have := congrArg strToNat h
  rwa [strToNat_natToStr, strToNat_natToStr] at this

theorem dash_not_mem_natToStr (n : Nat) : '-' ∉ natToStr n := by
  rw [natToStr]
  by_cases h0 : n = 0
  · simp [h0]
  · rw [if_neg h0]
    intro hmem
    obtain ⟨d, hd, hdc⟩ := List.mem_map.mp hmem
    have hlt : d < 10 := Nat.digits_lt_base (by norm_num) (List.mem_reverse.mp hd)
    interval_cases d <;> simp [digitChar] at hdc

/-- Splitting at a separator absent from the left parts is unambiguous. -/
theorem append_sep_inj (sep : Char) :
    ∀ (a₁ a₂ b₁ b₂ : Str), sep ∉ a₁ → sep ∉ a₂ →
      a₁ ++ sep :: b₁ = a₂ ++ sep :: b₂ → a₁ = a₂ ∧ b₁ = b₂ := by
  intro a₁
  induction a₁ with
  | nil =>
    intro a₂ b₁ b₂ _ hna₂ heq
    cases a₂ with
    | nil => simpa using heq
    | cons c t =>
      simp only [List.nil_append, List.cons_append, List.cons.injEq] at heq
      exact absurd (heq.1 ▸ List.mem_cons_self c t) hna₂
  | cons c t ih =>
    intro a₂ b₁ b₂ hna₁ hna₂ heq
    cases a₂ with
    | nil =>
      simp only [List.cons_append, List.nil_append, List.cons.injEq] at heq
      exact absurd (heq.1 ▸ List.mem_cons_self c t) hna₁
    | cons c₂ t₂ =>
      simp only [List.cons_append, List.cons.injEq] at heq
      obtain ⟨h1, h2⟩ := ih t₂ b₁ b₂ (fun hm => hna₁ (List.mem_cons_of_mem c hm))
        (fun hm => hna₂ (List.mem_cons_of_mem c₂ hm)) heq.2
      exact ⟨by rw [heq.1, h1], h2⟩

/-- Claim C7 (amended): `_generate_name` is deterministic (a pure function of
base, version, host), and in the parallel fan-out path distinct suffixes, and
in particular distinct fan-out indices `i` (for any uuid fragments, hence for
any `parallel_repeats`, including 1000), always yield distinct test-client
container names; but the map is not injective on whole (base, version, host)
tuples, since only the version's final colon-separated tag enters the name. -/
theorem container_naming_spec :
    (∀ version s₁ s₂ : Str, s₁ ≠ s₂ → testClientName version s₁ ≠ testClientName version s₂)
    ∧ (∀ (version u₁ u₂ : Str) (i j : Nat), i ≠ j →
      testClientName version (parallelSuffix i u₁) ≠ testClientName version (parallelSuffix j u₂))
    ∧ (∀ base version host : Str,
      generate_name base version host =
        base ++ ('-' :: pyReplaceChar '.' '-' host) ++ ('-' :: versionTag version)) := by
  have hsuffix : ∀ version s₁ s₂ : Str,
      testClientName version s₁ = testClientName version s₂ → s₁ = s₂ := by
    intro version s₁ s₂ h
    exact List.append_cancel_left h
  refine ⟨?_, ?_, ?_⟩
  · intro version s₁ s₂ hne h
    exact hne (hsuffix version s₁ s₂ h)
  · intro version u₁ u₂ i j hij h
    have hs := hsuffix version _ _ h
    rw [parallelSuffix, parallelSuffix, List.append_assoc, List.append_assoc] at hs
    have hs2 := List.append_cancel_left hs
    obtain ⟨h1, -⟩ := append_sep_inj '-' (natToStr i) (natToStr j) u₁ u₂
      (dash_not_mem_natToStr i) (dash_not_mem_natToStr j) hs2
    exact hij (natToStr_injective h1)
  · intro base version host
    rfl

/-- Claim C7, counterexample to injectivity as stated: two distinct
(base, version, host) tuples yield the same container name, because only the
version's tag after the last colon is used. -/
theorem generate_name_not_injective :
    generate_name (strL ("xrootd-server")) (strL ("gridppedi/xrdtesting:xrd-v5.8.3"))
        (strL ("node1.example.org"))
      = generate_name (strL ("xrootd-server")) (strL ("other/image:xrd-v5.8.3"))
        (strL ("node1.example.org"))
    ∧ strL ("gridppedi/xrdtesting:xrd-v5.8.3") ≠ strL ("other/image:xrd-v5.8.3") := by
  constructor
  · decide
  · decide

/-- Witness for the amended C7: fan-out indices 0 and 1 with different uuid
fragments give different client container names. -/
theorem container_naming_spec_witness :
    testClientName (strL ("img:v1")) (parallelSuffix 0 (strL ("0a1b2c3d")))
      ≠ testClientName (strL ("img:v1")) (parallelSuffix 1 (strL ("0a1b2c3d"))) :=
  container_naming_spec.2.1 (strL ("img:v1")) (strL ("0a1b2c3d")) (strL ("0a1b2c3d")) 0 1
    (by decide)

theorem cleanup_not_mem_clientEvents (outcome : Nat → Bool) :
    ∀ order : List Nat, PEvent.cleanupServers ∉ clientEvents outcome order := by
  intro order
  induction order with
  | nil => simp [clientEvents]
  | cons i rest ih =>
    rw [clientEvents]
    by_cases hi : outcome i = true
    · simp [hi, ih]
    · have hi' : outcome i = false := by simpa using hi
      simp [hi', ih]

theorem clientDone_mem_clientEvents (outcome : Nat → Bool) :
    ∀ (order : List Nat) (i : Nat), i ∈ order →
      PEvent.clientDone i (outcome i) ∈ clientEvents outcome order := by
  intro order
  induction order with
  | nil => simp
  | cons j rest ih =>
    intro i hi
    rw [clientEvents]
    rcases List.mem_cons.mp hi with h | h
    · subst h; exact List.mem_cons_self _ _
    · by_cases hj : outcome j = true
      · simp only [hj, if_true]
        exact List.mem_cons_of_mem _ (ih i h)
      · have hj' : outcome j = false := by simpa using hj
        simp only [hj', Bool.false_eq_true, if_false]
        exact List.mem_cons_of_mem _ (List.mem_cons_of_mem _ (ih i h))

theorem caughtError_mem_clientEvents (outcome : Nat → Bool) :
    ∀ (order : List Nat) (i : Nat), i ∈ order → outcome i = false →
      PEvent.caughtError i ∈ clientEvents outcome order := by
  intro order
  induction order with
  | nil => simp
  | cons j rest ih =>
    intro i hi hfalse
    rw [clientEvents]
    rcases List.mem_cons.mp hi with h | h
    · subst h
      simp only [hfalse, Bool.false_eq_true, if_false]
      exact List.mem_cons_of_mem _ (List.mem_cons_self _ _)
    · by_cases hj : outcome j = true
      · simp only [hj, if_true]
        exact List.mem_cons_of_mem _ (ih i h hfalse)
      · have hj' : outcome j = false := by simpa using hj
        simp only [hj', Bool.false_eq_true, if_false]
        exact List.mem_cons_of_mem _ (List.mem_cons_of_mem _ (ih i h hfalse))

/-- Claim C3: with at least one server, the parallel path calls
`cleanup_servers` exactly once, strictly after every one of the
`parallel_repeats` client executions has completed (cleanup is the last
event and appears nowhere before); every client completes — a raised
exception is caught and logged (`caughtError`) and stops neither the
sibling clients nor the single server cleanup. -/
theorem parallel_cleanup_spec (numServers n : Nat) (order : List Nat)
    (outcome : Nat → Bool) (hns : numServers ≠ 0) (hperm : order.Perm (List.range n)) :
    (run_parallel_clients numServers order outcome).count PEvent.cleanupServers = 1
    ∧ (run_parallel_clients numServers order outcome).getLast? = some PEvent.cleanupServers
    ∧ (∀ i, i < n →
        PEvent.clientDone i (outcome i) ∈ (run_parallel_clients numServers order outcome).dropLast)
    ∧ (∀ i, i < n → outcome i = false →
        PEvent.caughtError i ∈ (run_parallel_clients numServers order outcome).dropLast)
    ∧ PEvent.cleanupServers ∉ (run_parallel_clients numServers order outcome).dropLast := by
  have hmem : ∀ i, i < n → i ∈ order := fun i hi =>
    hperm.mem_iff.mpr (List.mem_range.mpr hi)
  have htr : run_parallel_clients numServers order outcome =
      (PEvent.launchServers :: clientEvents outcome order) ++ [PEvent.cleanupServers] := by
    rw [run_parallel_clients, if_neg hns]
    simp
  have hdrop : (run_parallel_clients numServers order outcome).dropLast =
      PEvent.launchServers :: clientEvents outcome order := by
    rw [htr, List.dropLast_concat]
  refine ⟨?_, ?_, ?_, ?_, ?_⟩
  · have h0 : (clientEvents outcome order).count PEvent.cleanupServers = 0 :=
      List.count_eq_zero.mpr (cleanup_not_mem_clientEvents outcome order)
    rw [htr]
    simp [List.count_append, List.count_cons, h0]
  · rw [htr, List.getLast?_concat]
  · intro i hi
    rw [hdrop]
    exact List.mem_cons_of_mem _ (clientDone_mem_clientEvents outcome order i (hmem i hi))
  · intro i hi hfalse
    rw [hdrop]
    exact List.mem_cons_of_mem _ (caughtError_mem_clientEvents outcome order i (hmem i hi) hfalse)
  · rw [hdrop]
    intro hmem2
    rcases List.mem_cons.mp hmem2 with h | h
    · exact PEvent.noConfusion h
    · exact cleanup_not_mem_clientEvents outcome order h

/-- Witness for C3: one server, three fan-out clients completing in order
1, 0, 2 where client 0 raises: cleanup happens once, last, after all three;
the failure of client 0 is caught and its siblings still complete. -/
theorem parallel_cleanup_spec_witness :
    (run_parallel_clients 1 [1, 0, 2] (fun i => decide (i ≠ 0))).count PEvent.cleanupServers = 1
    ∧ (run_parallel_clients 1 [1, 0, 2] (fun i => decide (i ≠ 0))).getLast?
        = some PEvent.cleanupServers
    ∧ PEvent.caughtError 0 ∈ (run_parallel_clients 1 [1, 0, 2] (fun i => decide (i ≠ 0))).dropLast
    ∧ PEvent.clientDone 2 true ∈ (run_parallel_clients 1 [1, 0, 2] (fun i => decide (i ≠ 0))).dropLast := by
  obtain ⟨h1, h2, h3, h4, -⟩ := parallel_cleanup_spec 1 3 [1, 0, 2] (fun i => decide (i ≠ 0))
    (by decide) (by decide)
  refine ⟨h1, h2, h4 0 (by decide) (by decide), ?_⟩
  have := h3 2 (by decide)
  simpa using this

theorem catchExceptionClause_ok (r : Except CleanupExc Unit) :
    ∃ o, catchExceptionClause r = .ok o := by
  cases r with
  | ok _ => exact ⟨.cleaned, rfl⟩
  | error e => exact ⟨.warned, by cases e <;> rfl⟩

/-- Claim C8: `cleanup_servers` is total and best-effort — for every sequence
of per-runner engine behaviours (arbitrary failures in connect, get, stop,
log collection, upload or removal) it returns normally, processing every
runner; and in `runner.cleanup_server` a `NotFound` container at any step is
treated as already clean while engine connection failures are caught and
logged, with neither propagating to the caller. -/
theorem cleanup_best_effort :
    (∀ (envs : List RunnerCleanupEnv) (hasUploader : Bool),
      ∃ outs, cleanup_servers envs hasUploader = .ok outs ∧ outs.length = envs.length)
    ∧ (∀ (env : RunnerCleanupEnv) (hasUploader : Bool),
      env.getClient = .ok () → env.getContainer = .error .notFound →
      cleanup_server env hasUploader = .ok ())
    ∧ (∀ (env : RunnerCleanupEnv) (hasUploader : Bool),
      env.getClient = .error .connectionError →
      cleanup_server env hasUploader = .ok ())
    ∧ (∀ e : CleanupExc, isExceptionSubclass e = true) := by
  refine ⟨?_, ?_, ?_, ?_⟩
  · intro envs hasUploader
    induction envs with
    | nil => exact ⟨[], rfl, rfl⟩
    | cons env rest ih =>
      obtain ⟨outs, houts, hlen⟩ := ih
      obtain ⟨o, ho⟩ := catchExceptionClause_ok (cleanupOneBody env hasUploader)
      refine ⟨o :: outs, ?_, by simp [hlen]⟩
      rw [cleanup_servers]
      simp only [ho, houts]
      rfl
  · intro env hasUploader hclient hget
    obtain ⟨gc, gcont, st, lg, up, rm⟩ := env
    simp only at hclient hget
    subst hclient
    subst hget
    rfl
  · intro env hasUploader hclient
    obtain ⟨gc, gcont, st, lg, up, rm⟩ := env
    simp only at hclient
    subst hclient
    rfl
  · intro e; cases e <;> rfl

/-- Witness for C8: a runner whose engine connection fails and one whose
container is already absent both clean up without an error; a two-runner
cleanup where the first runner's stop raises still processes both runners.
-/
theorem cleanup_best_effort_witness :
    cleanup_server
        { getClient := .error .connectionError, getContainer := .ok true, stopC := .ok (),
          logsC := .ok [], uploadC := .ok (), removeC := .ok () } true = .ok ()
    ∧ cleanup_server
        { getClient := .ok (), getContainer := .error .notFound, stopC := .ok (),
          logsC := .ok [], uploadC := .ok (), removeC := .ok () } false = .ok ()
    ∧ ∃ outs, cleanup_servers
        [{ getClient := .ok (), getContainer := .ok true, stopC := .error .otherError,
           logsC := .ok [], uploadC := .ok (), removeC := .ok () },
         { getClient := .ok (), getContainer := .ok false, stopC := .ok (),
           logsC := .ok [], uploadC := .ok (), removeC := .ok () }] true = .ok outs
        ∧ outs.length = 2 := by
  refine ⟨?_, ?_, ?_⟩
  · exact cleanup_best_effort.2.2.1
      { getClient := .error .connectionError, getContainer := .ok true, stopC := .ok (),
        logsC := .ok [], uploadC := .ok (), removeC := .ok () } true rfl
  · exact cleanup_best_effort.2.1
      { getClient := .ok (), getContainer := .error .notFound, stopC := .ok (),
        logsC := .ok [], uploadC := .ok (), removeC := .ok () } false rfl rfl
  · exact cleanup_best_effort.1
      [{ getClient := .ok (), getContainer := .ok true, stopC := .error .otherError,
         logsC := .ok [], uploadC := .ok (), removeC := .ok () },
       { getClient := .ok (), getContainer := .ok false, stopC := .ok (),
         logsC := .ok [], uploadC := .ok (), removeC := .ok () }] true

theorem mem_takeWhile_pred (p : Char → Bool) :
    ∀ (l : Str) (c : Char), c ∈ l.takeWhile p → p c = true := by
  intro l
  induction l with
  | nil => intro c h; simp [List.takeWhile] at h
  | cons a t ih =>
    intro c h
    rw [List.takeWhile] at h
    by_cases ha : p a = true
    · rw [ha] at h
      simp only [List.mem_cons] at h
      rcases h with h | h
      · subst h; exact ha
      · exact ih c h
    · have : p a = false := by simpa using ha
      rw [this] at h
      simp at h

theorem dropWhile_head_false (p : Char → Bool) :
    ∀ (l : Str) (c : Char) (rest : Str), l.dropWhile p = c :: rest → p c = false := by
  intro l
  induction l with
  | nil => intro c rest h; simp [List.dropWhile] at h
  | cons a t ih =>
    intro c rest h
    rw [List.dropWhile] at h
    by_cases ha : p a = true
    · rw [ha] at h
      exact ih c rest h
    · have ha' : p a = false := by simpa using ha
      rw [ha'] at h
      simp only [List.cons.injEq] at h
      rw [← h.1]
      exact ha'

theorem takeWhile_append_stop (p : Char → Bool) :
    ∀ (l r : Str), (∀ c ∈ l, p c = true) →
      (∀ c rest, r = c :: rest → p c = false) →
      (l ++ r).takeWhile p = l ∧ (l ++ r).dropWhile p = r := by
  intro l
  induction l with
  | nil =>
    intro r _ hr
    cases r with
    | nil => exact ⟨rfl, rfl⟩
    | cons c rest =>
      have := hr c rest rfl
      constructor
      · simp [List.takeWhile, this]
      · simp [List.dropWhile, this]
  | cons a t ih =>
    intro r hl hr
    have ha : p a = true := hl a (List.mem_cons_self a t)
    obtain ⟨h1, h2⟩ := ih r (fun c hc => hl c (List.mem_cons_of_mem a hc)) hr
    constructor
    · simp [List.takeWhile, ha, h1]
    · simp [List.dropWhile, ha, h2]

theorem isUnitChar_cases {u : Char} (h : isUnitChar u = true) :
    u = 'k' ∨ u = 'M' ∨ u = 'G' := by
  simp only [isUnitChar, Bool.or_eq_true, decide_eq_true_eq] at h
  tauto

theorem unit_not_digit {u : Char} (h : isUnitChar u = true) : u.isDigit = false := by
  rcases isUnitChar_cases h with h | h | h <;> subst h <;> decide

theorem unit_ne_dot {u : Char} (h : isUnitChar u = true) : u ≠ '.' := by
  rcases isUnitChar_cases h with h | h | h <;> subst h <;> decide

theorem unit_ne_lbracket {u : Char} (h : isUnitChar u = true) : u ≠ '[' := by
  rcases isUnitChar_cases h with h | h | h <;> subst h <;> decide

theorem digit_ne_lbracket {c : Char} (h : c.isDigit = true) : c ≠ '[' := by
  intro heq
  subst heq
  simp [Char.isDigit] at h

theorem matchUnitTail_sound (r : Str) (u : Char) (rest : Str)
    (h : matchUnitTail r = some (u, rest)) :
    isUnitChar u = true ∧ r = u :: (strL ("B/s]") ++ rest) := by
  cases r with
  | nil => simp [matchUnitTail] at h
  | cons c tail =>
    rw [matchUnitTail] at h
    by_cases hc : isUnitChar c = true ∧ (strL ("B/s]")).isPrefixOf tail = true
    · rw [if_pos hc] at h
      simp only [Option.some.injEq, Prod.mk.injEq] at h
      obtain ⟨t, ht⟩ := List.isPrefixOf_iff_prefix.mp hc.2
      have hdrop : tail.drop 4 = t := by
        rw [← ht]
        have h4 : (4 : Nat) = (strL ("B/s]")).length := rfl
        rw [h4, List.drop_left]
      constructor
      · rw [← h.1]; exact hc.1
      · rw [← h.1]
        simp only [List.cons.injEq, true_and]
        rw [← h.2, hdrop]
        exact ht.symm
    · rw [if_neg hc] at h
      exact absurd h (by simp)

theorem matchUnitTail_complete (u : Char) (rest : Str) (h : isUnitChar u = true) :
    matchUnitTail (u :: (strL ("B/s]") ++ rest)) = some (u, rest) := by
  rw [matchUnitTail]
  rw [if_pos ⟨h, List.isPrefixOf_iff_prefix.mpr ⟨rest, rfl⟩⟩]
  have h4 : (4 : Nat) = (strL ("B/s]")).length := rfl
  rw [h4, List.drop_left]

theorem matchWithFrac_complete (ds : Str) (fs : Option Str) (u : Char) (rest : Str)
    (h : isUnitChar u = true) :
    matchWithFrac ds fs (u :: (strL ("B/s]") ++ rest)) = some (ds, fs, u, rest) := by
  rw [matchWithFrac, matchUnitTail_complete u rest h]

theorem matchWithFrac_sound (ds : Str) (fs : Option Str) (r ds' : Str) (fs' : Option Str)
    (u : Char) (rest : Str) (h : matchWithFrac ds fs r = some (ds', fs', u, rest)) :
    ds' = ds ∧ fs' = fs ∧ isUnitChar u = true ∧ r = u :: (strL ("B/s]") ++ rest) := by
  rw [matchWithFrac] at h
  cases hmu : matchUnitTail r with
  | none => rw [hmu] at h; exact absurd h (by simp)
  | some p =>
    obtain ⟨u0, rest0⟩ := p
    rw [hmu] at h
    simp only [Option.some.injEq, Prod.mk.injEq] at h
    obtain ⟨h1, h2, h3, h4⟩ := h
    obtain ⟨hu0, hr⟩ := matchUnitTail_sound r u0 rest0 hmu
    subst h3
    subst h4
    exact ⟨h1.symm, h2.symm, hu0, hr⟩

theorem matchAfterDigits_noFrac (ds : Str) (u : Char) (rest : Str) (h : isUnitChar u = true) :
    matchAfterDigits ds (u :: (strL ("B/s]") ++ rest)) = some (ds, none, u, rest) := by
  rw [matchAfterDigits]
  rw [if_neg (unit_ne_dot h)]
  exact matchWithFrac_complete ds none u rest h

theorem matchAfterDigits_frac (ds f : Str) (u : Char) (rest : Str)
    (hf : f ≠ []) (hfdig : ∀ c ∈ f, c.isDigit = true) (hu : isUnitChar u = true) :
    matchAfterDigits ds ('.' :: (f ++ u :: (strL ("B/s]") ++ rest))) = some (ds, some f, u, rest) := by
  rw [matchAfterDigits]
  rw [if_pos rfl]
  have hstop : ∀ c rst, u :: (strL ("B/s]") ++ rest) = c :: rst → Char.isDigit c = false := by
    intro c rst hr
    simp only [List.cons.injEq] at hr
    rw [← hr.1]
    exact unit_not_digit hu
  obtain ⟨htake, hdrop⟩ := takeWhile_append_stop Char.isDigit f (u :: (strL ("B/s]") ++ rest))
    hfdig hstop
  rw [htake, hdrop]
  rw [if_neg (by simpa [List.isEmpty_iff] using hf)]
  exact matchWithFrac_complete ds (some f) u rest hu

theorem matchAfterDigits_sound (ds r1 ds' : Str) (fs' : Option Str) (u : Char) (rest : Str)
    (h : matchAfterDigits ds r1 = some (ds', fs', u, rest)) :
    ds' = ds ∧ isUnitChar u = true ∧
      ((fs' = none ∧ r1 = u :: (strL ("B/s]") ++ rest))
        ∨ (∃ f, fs' = some f ∧ f ≠ [] ∧ (∀ c ∈ f, c.isDigit = true)
            ∧ r1 = '.' :: (f ++ u :: (strL ("B/s]") ++ rest)))) := by
  cases r1 with
  | nil => simp [matchAfterDigits] at h
  | cons c1 r2 =>
    rw [matchAfterDigits] at h
    by_cases hdot : c1 = '.'
    · rw [if_pos hdot] at h
      subst hdot
      by_cases hemp : (r2.takeWhile Char.isDigit).isEmpty = true
      · rw [if_pos hemp] at h; exact absurd h (by simp)
      · rw [if_neg hemp] at h
        obtain ⟨h1, h2, h3, h4⟩ := matchWithFrac_sound ds (some (r2.takeWhile Char.isDigit))
          (r2.dropWhile Char.isDigit) ds' fs' u rest h
        refine ⟨h1, h3, Or.inr ⟨r2.takeWhile Char.isDigit, h2, ?_, ?_, ?_⟩⟩
        · simpa [List.isEmpty_iff] using hemp
        · exact fun c hc => mem_takeWhile_pred _ _ _ hc
        · simp only [List.cons.injEq, true_and]
          rw [← h4]
          exact (List.takeWhile_append_dropWhile Char.isDigit r2).symm
    · rw [if_neg hdot] at h
      obtain ⟨h1, h2, h3, h4⟩ := matchWithFrac_sound ds none (c1 :: r2) ds' fs' u rest h
      exact ⟨h1, h3, Or.inl ⟨h2, h4⟩⟩

/-- Completeness: `matchRate` recognises a well-formed annotation at the
start of the string and consumes exactly it. -/
theorem matchRate_rateTok (ds : Str) (fs : Option Str) (u : Char) (rest : Str)
    (h : WFTok ds fs u) :
    matchRate (rateTok ds fs u ++ rest) = some (ds, fs, u, rest) := by
  obtain ⟨hds, hdig, hfrac, hu⟩ := h
  have htok : rateTok ds fs u ++ rest =
      '[' :: (ds ++ (fracPart fs ++ (u :: (strL ("B/s]") ++ rest)))) := by
    rw [rateTok]
    simp [List.append_assoc]
  have hstop : ∀ c rst, fracPart fs ++ (u :: (strL ("B/s]") ++ rest)) = c :: rst →
      Char.isDigit c = false := by
    intro c rst hr
    cases fs with
    | none =>
      simp only [fracPart, List.nil_append, List.cons.injEq] at hr
      rw [← hr.1]
      exact unit_not_digit hu
    | some f =>
      simp only [fracPart, List.cons_append, List.cons.injEq] at hr
      rw [← hr.1]
      decide
  obtain ⟨htake, hdrop⟩ := takeWhile_append_stop Char.isDigit ds
    (fracPart fs ++ (u :: (strL ("B/s]") ++ rest))) hdig hstop
  rw [htok, matchRate, if_pos rfl, htake, hdrop]
  rw [if_neg (by simpa [List.isEmpty_iff] using hds)]
  cases fs with
  | none =>
    simp only [fracPart, List.nil_append]
    exact matchAfterDigits_noFrac ds u rest hu
  | some f =>
    obtain ⟨hf, hfdig⟩ := hfrac f rfl
    simp only [fracPart, List.cons_append]
    exact matchAfterDigits_frac ds f u rest hf hfdig hu

/-- Soundness: a successful `matchRate` is exactly a well-formed annotation
followed by the returned suffix. -/
theorem matchRate_sound :
    ∀ (s ds : Str) (fs : Option Str) (u : Char) (rest : Str),
      matchRate s = some (ds, fs, u, rest) →
      WFTok ds fs u ∧ s = rateTok ds fs u ++ rest := by
  intro s ds fs u rest h
  cases s with
  | nil => simp [matchRate] at h
  | cons c r =>
    rw [matchRate] at h
    by_cases hc : c = '['
    · rw [if_pos hc] at h
      subst hc
      by_cases hemp : (r.takeWhile Char.isDigit).isEmpty = true
      · rw [if_pos hemp] at h; exact absurd h (by simp)
      · rw [if_neg hemp] at h
        obtain ⟨h1, hu, hcase⟩ := matchAfterDigits_sound (r.takeWhile Char.isDigit)
          (r.dropWhile Char.isDigit) ds fs u rest h
        have hsplit : r.takeWhile Char.isDigit ++ r.dropWhile Char.isDigit = r :=
          List.takeWhile_append_dropWhile Char.isDigit r
        have hds_ne : ds ≠ [] := by
          rw [h1]
          simpa [List.isEmpty_iff] using hemp
        have hds_dig : ∀ c ∈ ds, c.isDigit = true := by
          rw [h1]
          exact fun c hc => mem_takeWhile_pred _ _ _ hc
        rcases hcase with ⟨hfs, hr1⟩ | ⟨f, hfs, hf, hfdig, hr1⟩
        · subst hfs
          refine ⟨⟨hds_ne, hds_dig, fun f hf => absurd hf (by simp), hu⟩, ?_⟩
          rw [← hsplit, hr1, h1, rateTok, fracPart]
          simp [List.append_assoc]
        · subst hfs
          refine ⟨⟨hds_ne, hds_dig, fun f' hf' => ?_, hu⟩, ?_⟩
          · simp only [Option.some.injEq] at hf'
            rw [← hf']
            exact ⟨hf, hfdig⟩
          · rw [← hsplit, hr1, h1, rateTok, fracPart]
            simp [List.append_assoc]
    · rw [if_neg hc] at h
      exact absurd h (by simp)

theorem rateTok_length_pos (ds : Str) (fs : Option Str) (u : Char) :
    0 < (rateTok ds fs u).length := by
  rw [rateTok]
  simp

theorem matchRate_rest_lt (s ds : Str) (fs : Option Str) (u : Char) (rest : Str)
    (h : matchRate s = some (ds, fs, u, rest)) : rest.length < s.length := by
  obtain ⟨-, heq⟩ := matchRate_sound s ds fs u rest h
  rw [heq, List.length_append]
  have := rateTok_length_pos ds fs u
  omega

/-! Scanner lemmas for `findRates`. -/

theorem lastOf_cons_of_some {α : Type} (a x : α) :
    ∀ l : List α, lastOf l = some x → lastOf (a :: l) = some x := by
  intro l h
  cases l with
  | nil => simp [lastOf] at h
  | cons b t => rw [lastOf]; exact h

theorem findRates_zero (s : Str) : findRates 0 s = [] := by
  cases s <;> rfl

theorem findRates_succ_none (fuel : Nat) (c : Char) (rest : Str)
    (h : matchRate (c :: rest) = none) :
    findRates (fuel + 1) (c :: rest) = findRates fuel rest := by
  rw [findRates, h]

theorem findRates_succ_some (fuel : Nat) (c : Char) (rest ds : Str) (fs : Option Str)
    (u : Char) (r : Str) (h : matchRate (c :: rest) = some (ds, fs, u, r)) :
    findRates (fuel + 1) (c :: rest) = (ds, fs, u) :: findRates fuel r := by
  rw [findRates, h]

theorem findRates_fuel_congr :
    ∀ (f₁ f₂ : Nat) (s : Str), s.length ≤ f₁ → s.length ≤ f₂ →
      findRates f₁ s = findRates f₂ s := by
  intro f₁
  induction f₁ with
  | zero =>
    intro f₂ s h1 _
    have : s = [] := List.eq_nil_of_length_eq_zero (Nat.le_zero.mp h1)
    subst this
    cases f₂ <;> rfl
  | succ g ih =>
    intro f₂ s h1 h2
    cases s with
    | nil => cases f₂ <;> rfl
    | cons c rest =>
      cases f₂ with
      | zero => simp at h2
      | succ hl =>
        simp only [List.length_cons] at h1 h2
        cases hm : matchRate (c :: rest) with
        | none =>
          rw [findRates_succ_none g c rest hm, findRates_succ_none hl c rest hm]
          exact ih hl rest (by omega) (by omega)
        | some p =>
          obtain ⟨ds, fs, u, r⟩ := p
          have hr := matchRate_rest_lt (c :: rest) ds fs u r hm
          simp only [List.length_cons] at hr
          rw [findRates_succ_some g c rest ds fs u r hm,
            findRates_succ_some hl c rest ds fs u r hm]
          rw [ih hl r (by omega) (by omega)]

theorem findRates_full (fuel : Nat) (s : Str) (h : s.length ≤ fuel) :
    findRates fuel s = findRateMatches s :=
  findRates_fuel_congr fuel s.length s h le_rfl

theorem findRates_nil_of_no_tok :
    ∀ (fuel : Nat) (s : Str), ¬ ContainsTok s → findRates fuel s = [] := by
  intro fuel
  induction fuel with
  | zero => intro s _; exact findRates_zero s
  | succ f ih =>
    intro s hno
    cases s with
    | nil => rfl
    | cons c rest =>
      cases hm : matchRate (c :: rest) with
      | none =>
        rw [findRates_succ_none f c rest hm]
        exact ih rest (fun ⟨pre, ds, fs, u, post, hwf, heq⟩ =>
          hno ⟨c :: pre, ds, fs, u, post, hwf, by rw [heq]; rfl⟩)
      | some p =>
        obtain ⟨ds, fs, u, r⟩ := p
        obtain ⟨hwf, heq⟩ := matchRate_sound (c :: rest) ds fs u r hm
        exact absurd ⟨[], ds, fs, u, r, hwf, by rw [heq]; rfl⟩ hno

theorem tok_len_pos_contra (pre ds : Str) (fs : Option Str) (u : Char) (post s : Str)
    (heq : s = pre ++ rateTok ds fs u ++ post) (hlen : s.length = 0) : False := by
  have := congrArg List.length heq
  rw [hlen] at this
  simp only [List.length_append] at this
  have := rateTok_length_pos ds fs u
  omega

theorem lbracket_not_mem_rateTok_tail (ds : Str) (fs : Option Str) (u : Char)
    (hwf : WFTok ds fs u) : '[' ∉ ds ++ fracPart fs ++ u :: strL ("B/s]") := by
  obtain ⟨-, hdig, hfrac, hu⟩ := hwf
  intro hmem
  simp only [List.mem_append, List.mem_cons] at hmem
  rcases hmem with (h | h) | h | h
  · exact digit_ne_lbracket (hdig _ h) rfl
  · cases fs with
    | none => simp [fracPart] at h
    | some f =>
      simp only [fracPart, List.mem_cons] at h
      rcases h with h | h
      · exact absurd h.symm (by decide)
      · exact digit_ne_lbracket ((hfrac f rfl).2 _ h) rfl
  · exact unit_ne_lbracket hu h.symm
  · revert h; decide

/-- The decisive scanning lemma: if the text decomposes as
`pre ++ annotation ++ post` with no annotation in `post`, the scanner's last
match is that annotation. -/
theorem findRates_lastOf :
    ∀ (fuel : Nat) (s : Str), s.length ≤ fuel →
      ∀ (pre ds : Str) (fs : Option Str) (u : Char) (post : Str),
        WFTok ds fs u → s = pre ++ rateTok ds fs u ++ post → ¬ ContainsTok post →
        lastOf (findRates fuel s) = some (ds, fs, u) := by
  intro fuel
  induction fuel with
  | zero =>
    intro s h1 pre ds fs u post hwf heq _
    exact (tok_len_pos_contra pre ds fs u post s heq (Nat.le_zero.mp h1)).elim
  | succ f ih =>
    intro s h1 pre ds fs u post hwf heq hno
    cases s with
    | nil => exact (tok_len_pos_contra pre ds fs u post [] heq rfl).elim
    | cons c rest =>
      cases hm : matchRate (c :: rest) with
      | none =>
        cases pre with
        | nil =>
          rw [List.nil_append] at heq
          rw [heq, matchRate_rateTok ds fs u post hwf] at hm
          exact absurd hm (by simp)
        | cons c0 pre' =>
          rw [findRates_succ_none f c rest hm]
          simp only [List.cons_append, List.cons.injEq] at heq
          exact ih rest (by simpa using h1) pre' ds fs u post hwf heq.2 hno
      | some p =>
        obtain ⟨ds0, fs0, u0, rest0⟩ := p
        obtain ⟨hwf0, heq0⟩ := matchRate_sound (c :: rest) ds0 fs0 u0 rest0 hm
        cases pre with
        | nil =>
          rw [List.nil_append] at heq
          have hm2 := hm
          rw [heq, matchRate_rateTok ds fs u post hwf] at hm2
          simp only [Option.some.injEq, Prod.mk.injEq] at hm2
          obtain ⟨hd, hf2, hu2, hr2⟩ := hm2
          subst hd; subst hf2; subst hu2; subst hr2
          rw [findRates_succ_some f c rest ds fs u post hm]
          rw [findRates_nil_of_no_tok f post hno]
          rfl
        | cons c0 pre' =>
          -- the found annotation cannot overlap ours: no bracket inside a token tail
          have hle : (rateTok ds0 fs0 u0).length ≤ (c0 :: pre').length := by
            by_contra hgt
            push_neg at hgt
            have hall : (c0 :: pre') ++ (rateTok ds fs u ++ post)
                = rateTok ds0 fs0 u0 ++ rest0 := by
              rw [← List.append_assoc, ← heq, heq0]
            have htk := congrArg (fun l => List.take (rateTok ds0 fs0 u0).length l) hall
            simp only at htk
            rw [List.take_left] at htk
            rw [List.take_append_eq_append_take,
              List.take_of_length_le (Nat.le_of_lt hgt)] at htk
            obtain ⟨m, hmm⟩ : ∃ m, (rateTok ds0 fs0 u0).length - (c0 :: pre').length = m + 1 := by
              refine ⟨(rateTok ds0 fs0 u0).length - (c0 :: pre').length - 1, ?_⟩
              omega
            rw [hmm] at htk
            have hexp : (rateTok ds fs u ++ post).take (m + 1)
                = '[' :: ((ds ++ fracPart fs ++ u :: strL ("B/s]")) ++ post).take m := by
              rw [rateTok, List.cons_append, List.take_succ_cons]
            rw [hexp] at htk
            have htail := congrArg List.tail htk.symm
            rw [rateTok] at htail
            simp only [List.tail_cons, List.cons_append] at htail
            exact lbracket_not_mem_rateTok_tail ds0 fs0 u0 hwf0 (by rw [htail]; simp)
          have htok0 : rest0 = (c0 :: pre').drop (rateTok ds0 fs0 u0).length
              ++ (rateTok ds fs u ++ post) := by
            have hdrop : ((c0 :: pre') ++ (rateTok ds fs u ++ post)).drop
                (rateTok ds0 fs0 u0).length = rest0 := by
              rw [← List.append_assoc, ← heq, heq0, List.drop_left]
            rw [← hdrop, List.drop_append_of_le_length hle]
          have hrlen : rest0.length ≤ f := by
            have := matchRate_rest_lt (c :: rest) ds0 fs0 u0 rest0 hm
            simp only [List.length_cons] at this h1
            omega
          have hrec := ih rest0 hrlen ((c0 :: pre').drop (rateTok ds0 fs0 u0).length)
            ds fs u post hwf (by rw [htok0, List.append_assoc]) hno
          rw [findRates_succ_some f c rest ds0 fs0 u0 rest0 hm]
          exact lastOf_cons_of_some _ _ _ hrec

theorem findRates_ne_nil_of_tok :
    ∀ (fuel : Nat) (s : Str), s.length ≤ fuel → ContainsTok s → findRates fuel s ≠ [] := by
  intro fuel
  induction fuel with
  | zero =>
    intro s h1 hc
    obtain ⟨pre, ds, fs, u, post, _, heq⟩ := hc
    exact (tok_len_pos_contra pre ds fs u post s heq (Nat.le_zero.mp h1)).elim
  | succ f ih =>
    intro s h1 hc
    obtain ⟨pre, ds, fs, u, post, hwf, heq⟩ := hc
    cases s with
    | nil => exact (tok_len_pos_contra pre ds fs u post [] heq rfl).elim
    | cons c rest =>
      cases hm : matchRate (c :: rest) with
      | none =>
        cases pre with
        | nil =>
          rw [List.nil_append] at heq
          rw [heq, matchRate_rateTok ds fs u post hwf] at hm
          exact absurd hm (by simp)
        | cons c0 pre' =>
          rw [findRates_succ_none f c rest hm]
          simp only [List.cons_append, List.cons.injEq] at heq
          exact ih rest (by simpa using h1) ⟨pre', ds, fs, u, post, hwf, heq.2⟩
      | some p =>
        obtain ⟨ds0, fs0, u0, r0⟩ := p
        rw [findRates_succ_some f c rest ds0 fs0 u0 r0 hm]
        simp

theorem containsTok_of_findRates_ne_nil :
    ∀ (fuel : Nat) (s : Str), findRates fuel s ≠ [] → ContainsTok s := by
  intro fuel
  induction fuel with
  | zero => intro s h; exact absurd (findRates_zero s) h
  | succ f ih =>
    intro s h
    cases s with
    | nil => exact absurd rfl h
    | cons c rest =>
      cases hm : matchRate (c :: rest) with
      | none =>
        rw [findRates_succ_none f c rest hm] at h
        obtain ⟨pre, ds, fs, u, post, hwf, heq⟩ := ih rest h
        exact ⟨c :: pre, ds, fs, u, post, hwf, by rw [heq]; rfl⟩
      | some p =>
        obtain ⟨ds, fs, u, r⟩ := p
        obtain ⟨hwf, heq⟩ := matchRate_sound (c :: rest) ds fs u r hm
        exact ⟨[], ds, fs, u, r, hwf, by rw [heq]; rfl⟩

/-- A text contains an annotation iff the scanner finds one. -/
theorem containsTok_iff (s : Str) : ContainsTok s ↔ findRateMatches s ≠ [] := by
  constructor
  · exact fun h => findRates_ne_nil_of_tok s.length s le_rfl h
  · exact fun h => containsTok_of_findRates_ne_nil s.length s h

/-! Curl-fallback lemmas. -/

theorem unit_not_digitdot {u : Char} (h : isUnitChar u = true) : isDigitDot u = false := by
  rcases isUnitChar_cases h with h | h | h <;> subst h <;> decide

theorem matchCurlToken_complete (p : Str) (u : Char) (r : Str) (hp : p ≠ [])
    (hpd : ∀ c ∈ p, isDigitDot c = true) (hu : isUnitChar u = true) :
    matchCurlToken (p ++ u :: r) = some (p, u) := by
  have hstop : ∀ c rst, u :: r = c :: rst → isDigitDot c = false := by
    intro c rst hr
    simp only [List.cons.injEq] at hr
    rw [← hr.1]
    exact unit_not_digitdot hu
  obtain ⟨htake, hdrop⟩ := takeWhile_append_stop isDigitDot p (u :: r) hpd hstop
  rw [matchCurlToken]
  simp only [htake, hdrop]
  rw [if_neg (by simpa [List.isEmpty_iff] using hp)]
  simp [hu]

theorem matchCurlToken_sound (s p : Str) (u : Char)
    (h : matchCurlToken s = some (p, u)) :
    p ≠ [] ∧ (∀ c ∈ p, isDigitDot c = true) ∧ isUnitChar u = true ∧ ∃ r, s = p ++ u :: r := by
  rw [matchCurlToken] at h
  by_cases hemp : (s.takeWhile isDigitDot).isEmpty = true
  · rw [if_pos hemp] at h; exact absurd h (by simp)
  · rw [if_neg hemp] at h
    cases hdrop : s.dropWhile isDigitDot with
    | nil => rw [hdrop] at h; exact absurd h (by simp)
    | cons u0 t =>
      rw [hdrop] at h
      replace h : (if isUnitChar u0 = true then some (s.takeWhile isDigitDot, u0) else none)
          = some (p, u) := h
      by_cases hu0 : isUnitChar u0 = true
      · rw [if_pos hu0] at h
        simp only [Option.some.injEq, Prod.mk.injEq] at h
        obtain ⟨hp, hu⟩ := h
        subst hp
        subst hu
        refine ⟨by simpa [List.isEmpty_iff] using hemp,
          fun c hc => mem_takeWhile_pred _ _ _ hc, hu0, t, ?_⟩
        conv_lhs => rw [← List.takeWhile_append_dropWhile isDigitDot s]
        rw [hdrop]
      · rw [if_neg hu0] at h
        exact absurd h (by simp)

theorem curlScan_cons_none (acc : Option Rat) (l : Str) (ls : List Str)
    (h : curlLineResult l = none) : curlScan acc (l :: ls) = curlScan acc ls := by
  rw [curlScan, h]

theorem curlScan_cons_ok (acc : Option Rat) (l : Str) (ls : List Str) (v : Rat)
    (h : curlLineResult l = some (.ok v)) : curlScan acc (l :: ls) = curlScan (some v) ls := by
  rw [curlScan, h]

theorem curlScan_cons_err (acc : Option Rat) (l : Str) (ls : List Str)
    (h : curlLineResult l = some (.error ())) : curlScan acc (l :: ls) = .error () := by
  rw [curlScan, h]

theorem curlLineResult_of_value (line : Str) (q : Rat) (h : SpecCurlValue line q) :
    curlLineResult line = some (.ok q) := by
  obtain ⟨hlen, hhead, p, u, r, v, hcol, hp, hpd, hu, hfloat, hq⟩ := h
  simp only [curlLineResult]
  rw [if_pos ⟨hlen, hhead⟩, hcol, matchCurlToken_complete p u r hp hpd hu]
  show (match pyFloatQ p with
    | some v => some (Except.ok (normRate v u))
    | none => some (Except.error ())) = some (Except.ok q)
  rw [hfloat, hq]

theorem curlLineResult_none_of_not_match (line : Str) (h : ¬ SpecCurlMatch line) :
    curlLineResult line = none := by
  simp only [curlLineResult]
  by_cases hcond : 12 ≤ (pySplitWS line).length ∧ (pySplitWS line).headD [] = strL ("100")
  · rw [if_pos hcond]
    cases hmc : matchCurlToken ((pySplitWS line).getD 6 []) with
    | none => rfl
    | some pu =>
      obtain ⟨p, u⟩ := pu
      obtain ⟨hp, hpd, hu, r, hcol⟩ := matchCurlToken_sound _ p u hmc
      exact absurd ⟨hcond.1, hcond.2, p, u, r, hcol, hp, hpd, hu⟩ h
  · rw [if_neg hcond]

theorem curlLineResult_not_err_of_good (line : Str) (hg : LineGood line) :
    curlLineResult line ≠ some (.error ()) := by
  simp only [curlLineResult]
  by_cases hcond : 12 ≤ (pySplitWS line).length ∧ (pySplitWS line).headD [] = strL ("100")
  · rw [if_pos hcond]
    cases hmc : matchCurlToken ((pySplitWS line).getD 6 []) with
    | none => simp
    | some pu =>
      obtain ⟨p, u⟩ := pu
      obtain ⟨hp, hpd, hu, r, hcol⟩ := matchCurlToken_sound _ p u hmc
      have hne := hg p u r hcol hp hpd hu hcond.1 hcond.2
      cases hf : pyFloatQ p with
      | none => exact absurd hf hne
      | some v =>
        intro hcontra
        replace hcontra : (match pyFloatQ p with
            | some v => some (Except.ok (normRate v u))
            | none => some (Except.error ())) = some (Except.error ()) := hcontra
        rw [hf] at hcontra
        simp at hcontra
  · rw [if_neg hcond]
    simp

theorem curlScan_nochange :
    ∀ (ls : List Str) (acc : Option Rat), (∀ l ∈ ls, ¬ SpecCurlMatch l) →
      curlScan acc ls = .ok acc := by
  intro ls
  induction ls with
  | nil => intro acc _; rfl
  | cons l tl ih =>
    intro acc h
    rw [curlScan_cons_none acc l tl
      (curlLineResult_none_of_not_match l (h l (List.mem_cons_self l tl)))]
    exact ih acc (fun x hx => h x (List.mem_cons_of_mem l hx))

theorem curlScan_last :
    ∀ (ls : List Str) (acc : Option Rat) (i : Nat) (q : Rat), i < ls.length →
      (∀ l ∈ ls, LineGood l) →
      SpecCurlValue (ls.getD i []) q →
      (∀ j, i < j → j < ls.length → ¬ SpecCurlMatch (ls.getD j [])) →
      curlScan acc ls = .ok (some q) := by
  intro ls
  induction ls with
  | nil => intro acc i q hi _ _ _; simp at hi
  | cons l tl ih =>
    intro acc i q hi hgood hval hafter
    cases i with
    | zero =>
      simp only [List.getD_cons_zero] at hval
      rw [curlScan_cons_ok acc l tl q (curlLineResult_of_value l q hval)]
      apply curlScan_nochange
      intro x hx
      obtain ⟨j, hj, hxj⟩ := List.getElem_of_mem hx
      have := hafter (j + 1) (by omega) (by simpa using Nat.succ_lt_succ hj)
      rw [List.getD_cons_succ] at this
      rwa [List.getD_eq_getElem tl [] hj, hxj] at this
    | succ i' =>
      simp only [List.getD_cons_succ] at hval
      have hgl : LineGood l := hgood l (List.mem_cons_self l tl)
      have hrest : ∀ l' ∈ tl, LineGood l' := fun x hx => hgood x (List.mem_cons_of_mem l hx)
      have hafter' : ∀ j, i' < j → j < tl.length → ¬ SpecCurlMatch (tl.getD j []) := by
        intro j hj1 hj2
        have := hafter (j + 1) (by omega) (by simpa using Nat.succ_lt_succ hj2)
        rwa [List.getD_cons_succ] at this
      have hi' : i' < tl.length := by simpa using hi
      cases hres : curlLineResult l with
      | none =>
        rw [curlScan_cons_none acc l tl hres]
        exact ih acc i' q hi' hrest hval hafter'
      | some er =>
        cases er with
        | ok v =>
          rw [curlScan_cons_ok acc l tl v hres]
          exact ih (some v) i' q hi' hrest hval hafter'
        | error e =>
          cases e
          exact absurd hres (curlLineResult_not_err_of_good l hgl)

theorem extract_eq_rate (s ds : Str) (fs : Option Str) (u : Char)
    (h : lastOf (findRateMatches s) = some (ds, fs, u)) :
    extract_transfer_speed s = .ok (some (normRate (ratOfParts ds fs) u)) := by
  rw [extract_transfer_speed, h]

theorem extract_eq_curl (s : Str) (h : findRateMatches s = []) :
    extract_transfer_speed s = curlScan none (pySplitlines s) := by
  rw [extract_transfer_speed, h]
  rfl

theorem pyFloatQ_isSome_of_cond (p : Str)
    (h : p.any Char.isDigit = true ∧ p.count '.' ≤ 1) : pyFloatQ p ≠ none := by
  rw [pyFloatQ, if_pos h]
  simp

theorem lineGood_of_matchCurlToken (line : Str)
    (h : ∀ p u, matchCurlToken ((pySplitWS line).getD 6 []) = some (p, u) → pyFloatQ p ≠ none) :
    LineGood line := by
  intro p u r hcol hp hpd hu _ _
  exact h p u (by rw [hcol]; exact matchCurlToken_complete p u r hp hpd hu)

/-- Claim C2 (amended): if the log text contains a bracketed rate annotation,
`extract_transfer_speed` returns the last one, normalised to MB/s (kB/s
divided by 1024, MB/s unchanged, GB/s multiplied by 1024); otherwise, if
every curl-style completion line's speed token parses as a float, it returns
the last completion line's value normalised the same way, and `None`
(distinguishable from 0.0) when no line matches; but on a text whose
completion-line token matches `[0-9.]+[kMG]` with an unparseable numeric
part (no digit or several dots), `float` raises `ValueError` instead of
returning — see the counterexample. -/
theorem extract_transfer_speed_spec :
    (∀ (s pre ds : Str) (fs : Option Str) (u : Char) (post : Str),
      WFTok ds fs u → s = pre ++ rateTok ds fs u ++ post → ¬ ContainsTok post →
      extract_transfer_speed s = .ok (some (normRate (ratOfParts ds fs) u)))
    ∧ (∀ (s : Str) (i : Nat) (q : Rat), ¬ ContainsTok s →
      (∀ line ∈ pySplitlines s, LineGood line) →
      i < (pySplitlines s).length →
      SpecCurlValue ((pySplitlines s).getD i []) q →
      (∀ j, i < j → j < (pySplitlines s).length →
        ¬ SpecCurlMatch ((pySplitlines s).getD j [])) →
      extract_transfer_speed s = .ok (some q))
    ∧ (∀ s : Str, ¬ ContainsTok s → (∀ line ∈ pySplitlines s, ¬ SpecCurlMatch line) →
      extract_transfer_speed s = .ok none) := by
  refine ⟨?_, ?_, ?_⟩
  · intro s pre ds fs u post hwf heq hno
    have hl : lastOf (findRateMatches s) = some (ds, fs, u) :=
      findRates_lastOf s.length s le_rfl pre ds fs u post hwf heq hno
    exact extract_eq_rate s ds fs u hl
  · intro s i q hno hgood hi hval hafter
    rw [extract_eq_curl s (findRates_nil_of_no_tok s.length s hno)]
    exact curlScan_last (pySplitlines s) none i q hi hgood hval hafter
  · intro s hno hnom
    rw [extract_eq_curl s (findRates_nil_of_no_tok s.length s hno)]
    exact curlScan_nochange (pySplitlines s) none hnom

/-- Claim C2, counterexample: on a 12-column curl completion line whose 7th
column is `..k` (matching the code's `([0-9.]+)([kMG])` but not a number),
`float("..")` raises `ValueError`, so `extract_transfer_speed` raises
instead of returning `None` as the claim requires (the text contains no
bracketed annotation and, per the claim, no 7th column beginning
number-then-unit). -/
theorem extract_transfer_speed_valueerror :
    extract_transfer_speed (strL ("100 a a a a a ..k a a a a a")) = .error ()
    ∧ ¬ ContainsTok (strL ("100 a a a a a ..k a a a a a")) := by
  constructor
  · rfl
  · rw [containsTok_iff]
    exact fun h => h (by decide)

/-- Witness for the amended C2, covering the spec's examples: the last
bracketed annotation wins and is normalised (44.0 MB/s; 512.0 kB/s is 0.5),
a curl completion line with 220M yields 220.0, and a text with no pattern
yields `None`. -/
theorem extract_transfer_speed_spec_witness :
    extract_transfer_speed (strL ("read [12.5MB/s] then [44.0MB/s]")) = .ok (some 44)
    ∧ extract_transfer_speed (strL ("rate [512.0kB/s]")) = .ok (some (1 / 2))
    ∧ extract_transfer_speed (strL ("100 1024k 0 0 0 0 220M 0 0 0 12 27")) = .ok (some 220)
    ∧ extract_transfer_speed (strL ("no speeds here")) = .ok none := by
  refine ⟨?_, ?_, ?_, ?_⟩
  · have h := extract_transfer_speed_spec.1 (strL ("read [12.5MB/s] then [44.0MB/s]"))
      (strL ("read [12.5MB/s] then ")) (strL ("44")) (some (strL ("0"))) 'M' []
      ⟨by decide, by decide,
        fun f hf => by
          rw [← Option.some.inj hf]
          exact ⟨by decide, by decide⟩,
        by decide⟩
      (by decide)
      (fun hc => (containsTok_iff []).mp hc (by decide))
    rw [h]
    have h44 : natOfDigitsChars (strL ("44")) = 44 := by decide
    have h0 : natOfDigitsChars (strL ("0")) = 0 := by decide
    simp only [ratOfParts, normRate, h44, h0]
    rw [if_pos trivial]
    have hl0 : (strL ("0")).length = 1 := by decide
    rw [hl0]
    norm_num
    all_goals decide
  · have h := extract_transfer_speed_spec.1 (strL ("rate [512.0kB/s]"))
      (strL ("rate ")) (strL ("512")) (some (strL ("0"))) 'k' []
      ⟨by decide, by decide,
        fun f hf => by
          rw [← Option.some.inj hf]
          exact ⟨by decide, by decide⟩,
        by decide⟩
      (by decide)
      (fun hc => (containsTok_iff []).mp hc (by decide))
    rw [h]
    have h512 : natOfDigitsChars (strL ("512")) = 512 := by decide
    have h0 : natOfDigitsChars (strL ("0")) = 0 := by decide
    simp only [ratOfParts, normRate, h512, h0]
    rw [if_pos trivial]
    have hl0 : (strL ("0")).length = 1 := by decide
    rw [hl0]
    norm_num
  · have hline : (pySplitlines (strL ("100 1024k 0 0 0 0 220M 0 0 0 12 27"))).getD 0 []
        = strL ("100 1024k 0 0 0 0 220M 0 0 0 12 27") := by decide
    have h := extract_transfer_speed_spec.2.1
      (strL ("100 1024k 0 0 0 0 220M 0 0 0 12 27")) 0
      (normRate ((natOfDigitsChars (strL ("220")) : Rat) +
        (natOfDigitsChars ([] : Str) : Rat) / (10 : Rat) ^ (0 : Nat)) 'M')
      (fun hc => (containsTok_iff _).mp hc (by decide))
      (fun line hl => by
        have hone : pySplitlines (strL ("100 1024k 0 0 0 0 220M 0 0 0 12 27"))
            = [strL ("100 1024k 0 0 0 0 220M 0 0 0 12 27")] := by decide
        rw [hone, List.mem_singleton] at hl
        subst hl
        apply lineGood_of_matchCurlToken
        intro p u hpu
        have hconc : matchCurlToken ((pySplitWS
            (strL ("100 1024k 0 0 0 0 220M 0 0 0 12 27"))).getD 6 [])
            = some (strL ("220"), 'M') := by decide
        rw [hconc] at hpu
        simp only [Option.some.injEq, Prod.mk.injEq] at hpu
        rw [← hpu.1]
        exact pyFloatQ_isSome_of_cond _ ⟨by decide, by decide⟩)
      (by decide)
      (by
        rw [hline]
        refine ⟨by decide, by decide, strL ("220"), 'M', [],
          (natOfDigitsChars (strL ("220")) : Rat) +
            (natOfDigitsChars ([] : Str) : Rat) / (10 : Rat) ^ (0 : Nat),
          by decide, by decide, by decide, by decide, rfl, rfl⟩)
      (fun j hj1 hj2 => by
        have hone : (pySplitlines (strL ("100 1024k 0 0 0 0 220M 0 0 0 12 27"))).length = 1 := by
          decide
        rw [hone] at hj2
        omega)
    rw [h]
    have h220 : natOfDigitsChars (strL ("220")) = 220 := by decide
    have h0 : natOfDigitsChars ([] : Str) = 0 := rfl
    simp only [normRate, h220, h0]
    rw [if_pos trivial]
    norm_num
    all_goals decide
  · have h := extract_transfer_speed_spec.2.2 (strL ("no speeds here"))
      (fun hc => (containsTok_iff _).mp hc (by decide))
      (fun line hl => by
        have hone : pySplitlines (strL ("no speeds here")) = [strL ("no speeds here")] := by decide
        rw [hone, List.mem_singleton] at hl
        subst hl
        rintro ⟨h12, -⟩
        revert h12
        decide)
    exact h

end XPodTest
